import Mathlib

/-!
Verification of `pysymoro/fldyn.py` (SYMORO flexible/floating dynamics module).

The module implements two symbolic spatial-dynamics recursions over a kinematic
tree with links `0 .. NL-1` (link `0` is the base, `ant j` the parent of `j`):

* `composite_newton_euler` — inverse dynamics via composite inertias: a backward
  sweep aggregates each subtree's spatial inertia (in 3×3/3×1/scalar form) and
  bias wrench into the parent, then a forward sweep propagates accelerations and
  produces the joint torques;
* `direct_dynamic_model` — forward dynamics in articulated-body style: the
  backward sweep eliminates each joint's scalar unknown (star inertia/bias), the
  forward sweep produces the joint accelerations.

The embedding models symbolic expressions by values in an arbitrary field `K`
(the common-subexpression calls `symo.replace` / `symo.mat_replace` are
semantically the identity and are dropped).  Spatial (6-dimensional) quantities
are indexed by `Fin 3 ⊕ Fin 3`: `Sum.inl` is the translational half (rows 0–2 of
the sympy column matrices), `Sum.inr` the rotational half (rows 3–5), so the
stacking `Matrix([a, b])` of the source becomes `Sum.elim a b` and 6×6 matrices
built from 3×3 blocks become `Matrix.fromBlocks`.

The per-link loops of the source mutate shared per-link containers; they are
embedded as folds over the exact iteration order of the source
(`xrange(1, NL)` ascending, `reversed(xrange(0, NL))` descending) with the
containers as explicit state, updated with `Function.update`.

External collaborators (`symoroutils.tools`, `pysymoro.geometry`,
`pysymoro.kinematics`, `symoroutils.paramsinit`) are not part of `src/`; the
definitions that stand in for them are explicitly marked `Modelled from the
spec:` in their doc comments.  In particular the geometric/kinematic inputs
(per-joint rotation `antRj`, translation `antPj`, angular velocities `w`, `wi`)
are arbitrary inputs gathered in a `Geom` structure.
-/

set_option maxRecDepth 100000

namespace Fldyn

open Matrix

variable {K : Type} [Field K] [DecidableEq K]

abbrev V3 (K : Type) : Type := Fin 3 → K
abbrev M3 (K : Type) : Type := Matrix (Fin 3) (Fin 3) K
abbrev V6 (K : Type) : Type := Fin 3 ⊕ Fin 3 → K
abbrev M6 (K : Type) : Type := Matrix (Fin 3 ⊕ Fin 3) (Fin 3 ⊕ Fin 3) K

/-- Modelled from the spec: `symoroutils.tools.skew` is outside `src/`.  Spec §2
("builds skew-symmetric operators") and §3 (the screw transform couples its
blocks "via the translation's skew-symmetric matrix"): the standard
cross-product operator matrix, with `skew v *ᵥ u` the cross product `v × u`. -/
def skew (v : V3 K) : M3 K :=
  !![0, -v 2, v 1; v 2, 0, -v 0; -v 1, v 0, 0]

/-- Spatial inertia matrix, `fldyn.py` lines 16–23 (`inertia_spatial`):
`Matrix([(mass*eye(3)).row_join(skew(ms).T), skew(ms).row_join(inertia)])`. -/
def inertia_spatial (inertia : M3 K) (ms_tensor : V3 K) (mass : K) : M6 K :=
  Matrix.fromBlocks (mass • (1 : M3 K)) (skew ms_tensor)ᵀ (skew ms_tensor) inertia

/-- The robot model (external collaborator, read-only): tree topology, joint
kinds `sigma` (0 revolute, 1 prismatic, 2 fixed), per-link inertial parameters,
actuator/friction scalars, applied wrenches and base data.  `fric_s j`,
`fric_v j`, `tau_ia j` stand for the values of the robot-model methods
`robo.fric_s(j)`, `robo.fric_v(j)`, `robo.tau_ia(j)`.  `ant_lt` is the spec's
external precondition (§4.3, §9) that the link numbering is parent-before-child. -/
structure Robot (K : Type) where
  NL : ℕ
  ant : ℕ → ℕ
  ant_lt : ∀ j, 0 < j → ant j < j
  sigma : ℕ → ℕ
  J : ℕ → M3 K
  MS : ℕ → V3 K
  M : ℕ → K
  IA : ℕ → K
  GAM : ℕ → K
  qdot : ℕ → K
  qddot : ℕ → K
  Fex : ℕ → V3 K
  Nex : ℕ → V3 K
  fric_s : ℕ → K
  fric_v : ℕ → K
  tau_ia : ℕ → K
  is_floating : Bool
  vdot0 : V3 K
  w0 : V3 K
  G : V3 K

/-- Modelled from the spec: outputs of the kinematics/geometry collaborators
(`compute_rot_trans`, `compute_omega` are outside `src/`), treated as arbitrary
inputs — per-joint rotation `antRj j`, translation `antPj j`, own angular
velocity `w j` and antecedent angular velocity projected into frame `j`,
`wi j`. -/
structure Geom (K : Type) where
  antRj : ℕ → M3 K
  antPj : ℕ → V3 K
  w : ℕ → V3 K
  wi : ℕ → V3 K

/-- Modelled from the spec: `pysymoro.geometry.compute_screw_transform` is
outside `src/`.  Spec §3: a 6×6 spatial transform mapping parent-frame spatial
quantities to child-frame ones, built from the rotation/translation pair with
the translational and rotational blocks coupled through `skew` of the
translation.  The block form is pinned down by consistency with the composite
aggregation of `compute_composite_inertia` (see `screw_congruence`). -/
def screw_transform (R : M3 K) (P : V3 K) : M6 K :=
  Matrix.fromBlocks Rᵀ (-(Rᵀ * skew P)) 0 Rᵀ

/-- The screw transform `j^T_{ant(j)}` of link `j` (source variable `jTant`). -/
def jTant (geom : Geom K) (j : ℕ) : M6 K :=
  screw_transform (geom.antRj j) (geom.antPj j)

/-- Link spatial inertia `grandJ[j] = inertia_spatial(robo.J[j], robo.MS[j],
robo.M[j])` (`fldyn.py` lines 359, 381, 456, 476). -/
def grandJ (robo : Robot K) (j : ℕ) : M6 K :=
  inertia_spatial (robo.J j) (robo.MS j) (robo.M j)

/-- Joint motion subspace vector (`fldyn.py` lines 360–364 / 457–461): z-axis
angular unit for a revolute joint (`sigma = 0`), z-axis linear unit for a
prismatic one (`sigma = 1`), and the zero vector otherwise — `jaj` is
initialised to zero by `ParamsInit.init_vec` (outside `src/`; spec §3: the
subspace vector is "zero for fixed" joints). -/
def jaj (robo : Robot K) (j : ℕ) : V6 K :=
  if robo.sigma j = 0 then Sum.elim 0 ![0, 0, 1]
  else if robo.sigma j = 1 then Sum.elim ![0, 0, 1] 0
  else 0

/-- Wrench bias `beta[j]`, `fldyn.py` lines 26–45 (`compute_beta`). -/
def compute_beta (robo : Robot K) (geom : Geom K) (j : ℕ) : V6 K :=
  let expr1 := robo.J j *ᵥ geom.w j
  let expr2 := skew (geom.w j) *ᵥ expr1
  let expr3 := skew (geom.w j) *ᵥ robo.MS j
  let expr4 := skew (geom.w j) *ᵥ expr3
  let expr5 := -robo.Nex j - expr2
  let expr6 := -robo.Fex j - expr4
  Sum.elim expr6 expr5

/-- Gyroscopic acceleration `gamma[j]`, `fldyn.py` lines 48–66
(`compute_gamma`); the joint-kind coefficients `(1 - sigma[j])` and
`2*sigma[j]` are applied arithmetically, exactly as in the source. -/
def compute_gamma (robo : Robot K) (geom : Geom K) (j : ℕ) : V6 K :=
  let expr1 := skew (geom.wi j) *ᵥ ![0, 0, robo.qdot j]
  let expr2 := ((1 : K) - (robo.sigma j : K)) • expr1
  let expr3 := ((2 : K) * (robo.sigma j : K)) • expr1
  let expr4 := skew (geom.w (robo.ant j)) *ᵥ geom.antPj j
  let expr5 := skew (geom.w (robo.ant j)) *ᵥ expr4
  let expr6 := (geom.antRj j)ᵀ *ᵥ expr5
  let expr7 := expr6 + expr3
  Sum.elim expr7 expr2

/-- Relative acceleration `zeta[j]`, `fldyn.py` lines 69–79 (`compute_zeta`);
`qdd` is the joint-acceleration source (`robo.qddot` at the inverse-dynamics
call site, the freshly computed accelerations in `direct_dynamic_model`). -/
def compute_zeta (robo : Robot K) (geom : Geom K) (qdd : ℕ → K) (j : ℕ) : V6 K :=
  compute_gamma robo geom j + qdd j • jaj robo j

/-- Computable matrix inverse over a field: `sympy.Matrix.inv`.  On an
invertible input this is the true inverse (`matInv_mulVec_cancel`); on a
singular input sympy raises a non-invertible-matrix error (modelled separately
by `compute_base_accel_checked`) and this total version returns `0`. -/
def matInv (A : M6 K) : M6 K :=
  if A.det = 0 then 0 else A.det⁻¹ • A.adjugate

/-- Per-link container state of the composite backward recursion
(`composite_newton_euler`): the 3×3/3×1/scalar running totals `comp_inertia3`,
`comp_ms`, `comp_mass` and the spatial `composite_inertia`/`composite_beta`. -/
structure CompState (K : Type) where
  comp_inertia3 : ℕ → M3 K
  comp_ms : ℕ → V3 K
  comp_mass : ℕ → K
  composite_inertia : ℕ → M6 K
  composite_beta : ℕ → V6 K

/-- Composite-inertia aggregation step, `fldyn.py` lines 82–102
(`compute_composite_inertia`): merge link `j`'s running totals into its parent
with the parallel-axis correction and reassemble the parent's 6×6 form. -/
def compute_composite_inertia (robo : Robot K) (geom : Geom K) (j : ℕ)
    (s : CompState K) : CompState K :=
  let i := robo.ant j
  let i_ms_j_c := geom.antRj j *ᵥ s.comp_ms j
  let expr1 := geom.antRj j * s.comp_inertia3 j
  let expr2 := expr1 * (geom.antRj j)ᵀ
  let expr3 := skew (geom.antPj j) * skew i_ms_j_c
  let comp_inertia3 := Function.update s.comp_inertia3 i
    (s.comp_inertia3 i +
      (expr2 - (expr3 + expr3ᵀ) +
        s.comp_mass j • (skew (geom.antPj j) * (skew (geom.antPj j))ᵀ)))
  let comp_ms := Function.update s.comp_ms i
    (s.comp_ms i + i_ms_j_c + s.comp_mass j • geom.antPj j)
  let comp_mass := Function.update s.comp_mass i (s.comp_mass i + s.comp_mass j)
  { comp_inertia3 := comp_inertia3
    comp_ms := comp_ms
    comp_mass := comp_mass
    composite_inertia := Function.update s.composite_inertia i
      (inertia_spatial (comp_inertia3 i) (comp_ms i) (comp_mass i))
    composite_beta := s.composite_beta }

/-- Composite-beta aggregation step, `fldyn.py` lines 105–121
(`compute_composite_beta`). -/
def compute_composite_beta (robo : Robot K) (geom : Geom K) (j : ℕ)
    (s : CompState K) : CompState K :=
  let i := robo.ant j
  let expr1 := s.composite_inertia j *ᵥ compute_zeta robo geom robo.qddot j
  let expr2 := (jTant geom j)ᵀ *ᵥ expr1
  let expr3 := (jTant geom j)ᵀ *ᵥ s.composite_beta j
  { s with composite_beta :=
      Function.update s.composite_beta i (s.composite_beta i + expr3 - expr2) }

/-- State after the first backward recursion of `composite_newton_euler`
(lines 377–386): `composite_inertia[j] = grandJ[j]`, `composite_beta[j] =
beta[j]` for every link (including the base, lines 379–383), and the running
totals hold each link's own parameters.  The totals' initial values come from
`ParamsInit.init_jplus`, which is outside `src/` — Modelled from the spec §4.4:
the "running composite totals" into which children are merged start from the
link's own 3×3 inertia, first moment and mass. -/
def compInit (robo : Robot K) (geom : Geom K) : CompState K :=
  { comp_inertia3 := robo.J
    comp_ms := robo.MS
    comp_mass := robo.M
    composite_inertia := fun j => grandJ robo j
    composite_beta := fun j => compute_beta robo geom j }

/-- One iteration of the second backward recursion of `composite_newton_euler`
(lines 388–410): for `j ≠ 0` run `compute_composite_inertia` then
`compute_composite_beta` (the `replace_composite_terms` call, lines 124–136, is
a pure renaming through the substitution engine and is the identity here); the
`j = 0` iteration only computes the base acceleration (`continue`), which is
read off the final state by `composite_newton_euler` below. -/
def compBackStep (robo : Robot K) (geom : Geom K) (s : CompState K) (j : ℕ) :
    CompState K :=
  if j = 0 then s
  else compute_composite_beta robo geom j (compute_composite_inertia robo geom j s)

/-- Composite backward recursion truncated from above: the loop
`for j in reversed(xrange(0, robo.NL))` after processing indices
`NL-1, NL-2, …, m`. -/
def compUpTo (robo : Robot K) (geom : Geom K) (m : ℕ) : CompState K :=
  ((List.range' m (robo.NL - m)).reverse).foldl (compBackStep robo geom)
    (compInit robo geom)

/-- The full composite backward recursion (lines 388–410). -/
def compBack (robo : Robot K) (geom : Geom K) : CompState K :=
  ((List.range robo.NL).reverse).foldl (compBackStep robo geom)
    (compInit robo geom)

/-- Base acceleration for the composite recursion, `fldyn.py` lines 283–298
(`compute_base_accel_composite`). -/
def compute_base_accel_composite (robo : Robot K) (s : CompState K)
    (grandVp : ℕ → V6 K) : ℕ → V6 K :=
  Function.update grandVp 0
    (if robo.is_floating then matInv (s.composite_inertia 0) *ᵥ s.composite_beta 0
     else Sum.elim (robo.vdot0 - robo.G) robo.w0)

/-- Link acceleration, `fldyn.py` lines 255–265 (`compute_link_accel`). -/
def compute_link_accel (robo : Robot K) (geom : Geom K) (j : ℕ)
    (zeta : ℕ → V6 K) (grandVp : ℕ → V6 K) : ℕ → V6 K :=
  Function.update grandVp j (jTant geom j *ᵥ grandVp (robo.ant j) + zeta j)

/-- Reaction wrench, `fldyn.py` lines 301–314 (`compute_reaction_wrench`). -/
def compute_reaction_wrench (j : ℕ) (grandVp : ℕ → V6 K) (inertia : ℕ → M6 K)
    (beta_wrench : ℕ → V6 K) (react_wrench : ℕ → V6 K) : ℕ → V6 K :=
  Function.update react_wrench j (inertia j *ᵥ grandVp j - beta_wrench j)

/-- Joint torque, `fldyn.py` lines 317–331 (`compute_torque`): `0` for a fixed
joint, otherwise `react_wrenchᵀ * jaj` plus
`fric_rotor = fric_s(j) + fric_v(j) + tau_ia(j)`. -/
def compute_torque (robo : Robot K) (j : ℕ) (react_wrench : ℕ → V6 K)
    (torque : ℕ → K) : ℕ → K :=
  Function.update torque j
    (if robo.sigma j = 2 then 0
     else react_wrench j ⬝ᵥ jaj robo j +
       (robo.fric_s j + robo.fric_v j + robo.tau_ia j))

/-- Forward-propagation state of `composite_newton_euler` (the per-link
containers `grandVp`, `react_wrench`, `torque`, zero-initialised by
`ParamsInit`). -/
structure CompFwd (K : Type) where
  grandVp : ℕ → V6 K
  react_wrench : ℕ → V6 K
  torque : ℕ → K

/-- One iteration of the acceleration/wrench/torque propagation of
`composite_newton_euler`: the base case is the `j = 0` arm of the second
backward recursion (lines 389–394), the `j ≥ 1` case is the second forward
recursion (lines 411–421). -/
def compFwdStep (robo : Robot K) (geom : Geom K) (C : CompState K)
    (s : CompFwd K) (j : ℕ) : CompFwd K :=
  if j = 0 then { s with grandVp := compute_base_accel_composite robo C s.grandVp }
  else
    let grandVp := compute_link_accel robo geom j
      (fun k => compute_zeta robo geom robo.qddot k) s.grandVp
    let react := compute_reaction_wrench j grandVp C.composite_inertia
      C.composite_beta s.react_wrench
    { grandVp := grandVp
      react_wrench := react
      torque := compute_torque robo j react s.torque }

/-- Results of `composite_newton_euler`. -/
structure NEResult (K : Type) where
  composite_inertia : ℕ → M6 K
  composite_beta : ℕ → V6 K
  grandVp : ℕ → V6 K
  react_wrench : ℕ → V6 K
  torque : ℕ → K

/-- The acceleration/wrench/torque propagation of `composite_newton_euler`
truncated to its first `m` iterations `j = 0, 1, …, m-1`. -/
def compFwdUpTo (robo : Robot K) (geom : Geom K) (C : CompState K) (m : ℕ) :
    CompFwd K :=
  (List.range m).foldl (compFwdStep robo geom C)
    { grandVp := fun _ => 0, react_wrench := fun _ => 0, torque := fun _ => 0 }

/-- Inverse dynamics by composite inertias, `fldyn.py` lines 334–421
(`composite_newton_euler`): backward aggregation sweep, base acceleration,
then the forward acceleration/wrench/torque sweep.  (`ParamsInit.init_vec` /
`init_scalar` / `init_mat` are outside `src/` — Modelled from the spec: fresh
zero-initialised per-link containers.) -/
def composite_newton_euler (robo : Robot K) (geom : Geom K) : NEResult K :=
  let C := compBack robo geom
  let F := compFwdUpTo robo geom C robo.NL
  { composite_inertia := C.composite_inertia
    composite_beta := C.composite_beta
    grandVp := F.grandVp
    react_wrench := F.react_wrench
    torque := F.torque }

/-- Per-link container state of the articulated (star) backward recursion of
`direct_dynamic_model`. -/
structure StarState (K : Type) where
  star_inertia : ℕ → M6 K
  star_beta : ℕ → V6 K
  h_inv : ℕ → K
  jah : ℕ → V6 K
  tau : ℕ → K

/-- Joint torque term `tau[j]`, `fldyn.py` lines 189–199 (`compute_tau`):
`0` for a fixed joint, else `jaj·star_beta + GAM - (fric_s + fric_v)`. -/
def compute_tau (robo : Robot K) (j : ℕ) (s : StarState K) : StarState K :=
  let t : K :=
    if robo.sigma j = 2 then 0
    else jaj robo j ⬝ᵥ s.star_beta j + robo.GAM j -
      (robo.fric_s j + robo.fric_v j)
  { s with tau := Function.update s.tau j t }

/-- Articulated-body elimination step, `fldyn.py` lines 202–231
(`compute_star_terms`): unguarded scalar division
`h_inv[j] = 1/(jaj·inertia_jaj + IA[j])`, eliminated inertia `jah`, Schur
complement `k_inertia`, and accumulation of `k_inertia`/`alpha` into the
parent's star inertia and bias (the 6×1-times-1×6 product
`jah[j] * inertia_jaj.transpose()` is `Matrix.vecMulVec`). -/
def compute_star_terms (robo : Robot K) (geom : Geom K) (j : ℕ)
    (s : StarState K) : StarState K :=
  let i := robo.ant j
  let inertia_jaj := s.star_inertia j *ᵥ jaj robo j
  let h_inv := (jaj robo j ⬝ᵥ inertia_jaj + robo.IA j)⁻¹
  let jah := h_inv • inertia_jaj
  let k_inertia := s.star_inertia j - Matrix.vecMulVec jah inertia_jaj
  let expr1 := k_inertia *ᵥ compute_gamma robo geom j
  let expr2 := expr1 + s.tau j • jah
  let alpha := expr2 - s.star_beta j
  let expr4 := (jTant geom j)ᵀ * k_inertia * jTant geom j
  { star_inertia := Function.update s.star_inertia i (s.star_inertia i + expr4)
    star_beta := Function.update s.star_beta i
      (s.star_beta i - (jTant geom j)ᵀ *ᵥ alpha)
    h_inv := Function.update s.h_inv j h_inv
    jah := Function.update s.jah j jah
    tau := s.tau }

/-- State after the first backward recursion of `direct_dynamic_model` (lines
472–481): `star_inertia[j] = grandJ[j]`, `star_beta[j] = beta[j]` for every
link including the base; the scalar/vector containers `h_inv`, `jah`, `tau`
are zero-initialised by `ParamsInit` (outside `src/` — Modelled from the spec:
fresh zero containers, fully overwritten for every `1 ≤ j < NL` before use). -/
def starInit (robo : Robot K) (geom : Geom K) : StarState K :=
  { star_inertia := fun j => grandJ robo j
    star_beta := fun j => compute_beta robo geom j
    h_inv := fun _ => 0
    jah := fun _ => 0
    tau := fun _ => 0 }

/-- One iteration of the second backward recursion of `direct_dynamic_model`
(lines 482–493): for `j ≠ 0` run `compute_tau` then `compute_star_terms`
(`replace_star_terms`, lines 139–151, is the identity here); `j = 0` is
`continue`. -/
def starStep (robo : Robot K) (geom : Geom K) (s : StarState K) (j : ℕ) :
    StarState K :=
  if j = 0 then s else compute_star_terms robo geom j (compute_tau robo j s)

/-- Star backward recursion truncated from above: the loop
`for j in reversed(xrange(0, robo.NL))` after processing indices
`NL-1, NL-2, …, m`. -/
def starUpTo (robo : Robot K) (geom : Geom K) (m : ℕ) : StarState K :=
  ((List.range' m (robo.NL - m)).reverse).foldl (starStep robo geom)
    (starInit robo geom)

/-- The full star backward recursion (lines 482–493). -/
def starBack (robo : Robot K) (geom : Geom K) : StarState K :=
  ((List.range robo.NL).reverse).foldl (starStep robo geom)
    (starInit robo geom)

/-- Base acceleration for the articulated recursion, `fldyn.py` lines 268–281
(`compute_base_accel`). -/
def compute_base_accel (robo : Robot K) (s : StarState K)
    (grandVp : ℕ → V6 K) : ℕ → V6 K :=
  Function.update grandVp 0
    (if robo.is_floating then matInv (s.star_inertia 0) *ᵥ s.star_beta 0
     else Sum.elim (robo.vdot0 - robo.G) robo.w0)

/-- Joint acceleration, `fldyn.py` lines 233–252 (`compute_joint_accel`):
`0` for a fixed joint, else `h_inv[j]*tau[j] - jah[j]·(jTant[j]·grandVp[ant j]
+ gamma[j])`. -/
def compute_joint_accel (robo : Robot K) (geom : Geom K) (j : ℕ)
    (S : StarState K) (grandVp : ℕ → V6 K) (qddot : ℕ → K) : ℕ → K :=
  let expr1 := jTant geom j *ᵥ grandVp (robo.ant j) + compute_gamma robo geom j
  let expr2 := S.jah j ⬝ᵥ expr1
  Function.update qddot j
    (if robo.sigma j = 2 then 0 else S.h_inv j * S.tau j - expr2)

/-- Forward-propagation state of `direct_dynamic_model` (per-link containers
`qddot`, `zeta`, `grandVp`, `react_wrench`). -/
structure DirFwd (K : Type) where
  qddot : ℕ → K
  zeta : ℕ → V6 K
  grandVp : ℕ → V6 K
  react_wrench : ℕ → V6 K

/-- One iteration of the second forward recursion of `direct_dynamic_model`
(lines 494–515): base acceleration at `j = 0`, else joint acceleration, then
relative acceleration `zeta` with the freshly computed `qddot`, link
acceleration and reaction wrench. -/
def dirFwdStep (robo : Robot K) (geom : Geom K) (S : StarState K)
    (s : DirFwd K) (j : ℕ) : DirFwd K :=
  if j = 0 then { s with grandVp := compute_base_accel robo S s.grandVp }
  else
    let qddot := compute_joint_accel robo geom j S s.grandVp s.qddot
    let zeta := Function.update s.zeta j (compute_zeta robo geom qddot j)
    let grandVp := compute_link_accel robo geom j zeta s.grandVp
    let react := compute_reaction_wrench j grandVp S.star_inertia S.star_beta
      s.react_wrench
    { qddot := qddot, zeta := zeta, grandVp := grandVp, react_wrench := react }

/-- Results of `direct_dynamic_model`. -/
structure DDMResult (K : Type) where
  star_inertia : ℕ → M6 K
  star_beta : ℕ → V6 K
  h_inv : ℕ → K
  jah : ℕ → V6 K
  tau : ℕ → K
  qddot : ℕ → K
  zeta : ℕ → V6 K
  grandVp : ℕ → V6 K
  react_wrench : ℕ → V6 K

/-- The forward sweep of `direct_dynamic_model` truncated to its first `m`
iterations `j = 0, 1, …, m-1`. -/
def dirFwdUpTo (robo : Robot K) (geom : Geom K) (S : StarState K) (m : ℕ) :
    DirFwd K :=
  (List.range m).foldl (dirFwdStep robo geom S)
    { qddot := fun _ => 0, zeta := fun _ => 0, grandVp := fun _ => 0,
      react_wrench := fun _ => 0 }

/-- Direct (forward) dynamics, `fldyn.py` lines 424–517
(`direct_dynamic_model`): star backward recursion then the forward
acceleration sweep.  The `symo` bookkeeping (`file_open`, table output,
`replace` naming) has no semantic content here and is dropped. -/
def direct_dynamic_model (robo : Robot K) (geom : Geom K) : DDMResult K :=
  let S := starBack robo geom
  let F := dirFwdUpTo robo geom S robo.NL
  { star_inertia := S.star_inertia
    star_beta := S.star_beta
    h_inv := S.h_inv
    jah := S.jah
    tau := S.tau
    qddot := F.qddot
    zeta := F.zeta
    grandVp := F.grandVp
    react_wrench := F.react_wrench }

/-- Failure conditions of the base-acceleration solve.  The source has no
error handling of its own: on a singular base inertia the
`star_inertia[0].inv()` call (lines 276, 294) surfaces the matrix library's
generic non-invertible-matrix error; `singularBaseInertia` is the dedicated
condition the spec (§4.5, §7) asks for, which nothing in the source raises. -/
inductive DynError where
  | nonInvertibleMatrix : DynError
  | singularBaseInertia : DynError
deriving DecidableEq

/-- Fallible version of the base-acceleration computation (lines 268–281 /
283–298), making the exception behaviour of `sympy.Matrix.inv` explicit: for a
floating base the solve fails with the library's generic
`nonInvertibleMatrix` error when the 6×6 inertia is singular. -/
def compute_base_accel_checked (robo : Robot K) (inertia0 : M6 K)
    (beta0 : V6 K) : Except DynError (V6 K) :=
  if robo.is_floating then
    if inertia0.det = 0 then Except.error DynError.nonInvertibleMatrix
    else Except.ok (matInv inertia0 *ᵥ beta0)
  else Except.ok (Sum.elim (robo.vdot0 - robo.G) robo.w0)

/-- The base-acceleration step of `direct_dynamic_model` with the solve's
failure made explicit. -/
def direct_dynamic_base_checked (robo : Robot K) (geom : Geom K) :
    Except DynError (V6 K) :=
  compute_base_accel_checked robo ((starBack robo geom).star_inertia 0)
    ((starBack robo geom).star_beta 0)

/-- The base-acceleration step of `composite_newton_euler` with the solve's
failure made explicit. -/
def composite_base_checked (robo : Robot K) (geom : Geom K) :
    Except DynError (V6 K) :=
  compute_base_accel_checked robo ((compBack robo geom).composite_inertia 0)
    ((compBack robo geom).composite_beta 0)

/-- The children of link `i`: the processed links `k` (so `0 < k < NL`) with
`ant k = i`; by `ant_lt` every processed child of `i` lies in `Ioo i NL`. -/
def children (robo : Robot K) (i : ℕ) : Finset ℕ :=
  (Finset.Ioo i robo.NL).filter (fun k => robo.ant k = i)

/-- The Schur complement `k_inertia` formed by `compute_star_terms` from a star
inertia `A` at joint `j`. -/
def kInertiaOf (robo : Robot K) (j : ℕ) (A : M6 K) : M6 K :=
  A - Matrix.vecMulVec
    ((jaj robo j ⬝ᵥ (A *ᵥ jaj robo j) + robo.IA j)⁻¹ • (A *ᵥ jaj robo j))
    (A *ᵥ jaj robo j)

/-- Closed form of the articulated (star) inertia of the subtree rooted at
`j`: the value `star_inertia[j]` holds when the second backward recursion of
`direct_dynamic_model` reaches link `j` (see `starBack_star_inertia`). -/
def Istar (robo : Robot K) (geom : Geom K) (j : ℕ) : M6 K :=
  grandJ robo j + ∑ k ∈ (children robo j).attach,
    (jTant geom k.1)ᵀ * kInertiaOf robo k.1 (Istar robo geom k.1) * jTant geom k.1
termination_by robo.NL - j
decreasing_by
  have h := k.2
  simp only [children, Finset.mem_filter, Finset.mem_Ioo] at h
  omega

/-- The divisor of the unguarded division in `compute_star_terms` line 213. -/
def hDenom (robo : Robot K) (geom : Geom K) (j : ℕ) : K :=
  jaj robo j ⬝ᵥ (Istar robo geom j *ᵥ jaj robo j) + robo.IA j

/-- Closed form of `h_inv[j]`. -/
def hInvD (robo : Robot K) (geom : Geom K) (j : ℕ) : K :=
  (hDenom robo geom j)⁻¹

/-- Closed form of `jah[j]`. -/
def jahD (robo : Robot K) (geom : Geom K) (j : ℕ) : V6 K :=
  hInvD robo geom j • (Istar robo geom j *ᵥ jaj robo j)

/-- The scalar computed by `compute_tau` at joint `j` from a star bias `b`. -/
def tauOf (robo : Robot K) (j : ℕ) (b : V6 K) : K :=
  if robo.sigma j = 2 then 0
  else jaj robo j ⬝ᵥ b + robo.GAM j - (robo.fric_s j + robo.fric_v j)

/-- Closed form of the star bias of the subtree rooted at `j` (the value
`star_beta[j]` holds when the backward recursion reaches link `j`). -/
def Bstar (robo : Robot K) (geom : Geom K) (j : ℕ) : V6 K :=
  compute_beta robo geom j - ∑ k ∈ (children robo j).attach,
    (jTant geom k.1)ᵀ *ᵥ
      (kInertiaOf robo k.1 (Istar robo geom k.1) *ᵥ compute_gamma robo geom k.1
        + tauOf robo k.1 (Bstar robo geom k.1) • jahD robo geom k.1
        - Bstar robo geom k.1)
termination_by robo.NL - j
decreasing_by
  have h := k.2
  simp only [children, Finset.mem_filter, Finset.mem_Ioo] at h
  omega

/-- Closed form of `tau[j]`. -/
def tauD (robo : Robot K) (geom : Geom K) (j : ℕ) : K :=
  tauOf robo j (Bstar robo geom j)

/-- Closed form of the `alpha` vector of `compute_star_terms` at joint `j`. -/
def alphaD (robo : Robot K) (geom : Geom K) (j : ℕ) : V6 K :=
  kInertiaOf robo j (Istar robo geom j) *ᵥ compute_gamma robo geom j
    + tauD robo geom j • jahD robo geom j - Bstar robo geom j

/-- Closed form of the composite mass total `comp_mass[j]`. -/
def compM (robo : Robot K) (j : ℕ) : K :=
  robo.M j + ∑ k ∈ (children robo j).attach, compM robo k.1
termination_by robo.NL - j
decreasing_by
  have h := k.2
  simp only [children, Finset.mem_filter, Finset.mem_Ioo] at h
  omega

/-- Closed form of the composite first-moment total `comp_ms[j]`. -/
def compMS (robo : Robot K) (geom : Geom K) (j : ℕ) : V3 K :=
  robo.MS j + ∑ k ∈ (children robo j).attach,
    (geom.antRj k.1 *ᵥ compMS robo geom k.1 + compM robo k.1 • geom.antPj k.1)
termination_by robo.NL - j
decreasing_by
  have h := k.2
  simp only [children, Finset.mem_filter, Finset.mem_Ioo] at h
  omega

/-- Closed form of the composite 3×3 inertia total `comp_inertia3[j]`. -/
def compJ3 (robo : Robot K) (geom : Geom K) (j : ℕ) : M3 K :=
  robo.J j + ∑ k ∈ (children robo j).attach,
    (geom.antRj k.1 * compJ3 robo geom k.1 * (geom.antRj k.1)ᵀ
      - (skew (geom.antPj k.1) * skew (geom.antRj k.1 *ᵥ compMS robo geom k.1)
          + (skew (geom.antPj k.1) *
             skew (geom.antRj k.1 *ᵥ compMS robo geom k.1))ᵀ)
      + compM robo k.1 • (skew (geom.antPj k.1) * (skew (geom.antPj k.1))ᵀ))
termination_by robo.NL - j
decreasing_by
  have h := k.2
  simp only [children, Finset.mem_filter, Finset.mem_Ioo] at h
  omega

/-- Closed form of the spatial composite inertia `composite_inertia[j]`. -/
def Icomp (robo : Robot K) (geom : Geom K) (j : ℕ) : M6 K :=
  inertia_spatial (compJ3 robo geom j) (compMS robo geom j) (compM robo j)

/-- Closed form of the composite bias `composite_beta[j]`. -/
def Bcomp (robo : Robot K) (geom : Geom K) (j : ℕ) : V6 K :=
  compute_beta robo geom j + ∑ k ∈ (children robo j).attach,
    ((jTant geom k.1)ᵀ *ᵥ Bcomp robo geom k.1
      - (jTant geom k.1)ᵀ *ᵥ
          (Icomp robo geom k.1 *ᵥ compute_zeta robo geom robo.qddot k.1))
termination_by robo.NL - j
decreasing_by
  have h := k.2
  simp only [children, Finset.mem_filter, Finset.mem_Ioo] at h
  omega

/-- Closed form of the link accelerations `grandVp[j]` produced by
`composite_newton_euler` (base case and `compute_link_accel` chain). -/
def VpC (robo : Robot K) (geom : Geom K) : ℕ → V6 K
  | 0 =>
    if robo.is_floating then matInv (Icomp robo geom 0) *ᵥ Bcomp robo geom 0
    else Sum.elim (robo.vdot0 - robo.G) robo.w0
  | j + 1 =>
    jTant geom (j + 1) *ᵥ VpC robo geom (robo.ant (j + 1)) +
      compute_zeta robo geom robo.qddot (j + 1)
termination_by j => j
decreasing_by
  exact robo.ant_lt (j + 1) (Nat.succ_pos j)

/-- Closed form of the reaction wrench `react_wrench[j]` of
`composite_newton_euler`. -/
def FC (robo : Robot K) (geom : Geom K) (j : ℕ) : V6 K :=
  Icomp robo geom j *ᵥ VpC robo geom j - Bcomp robo geom j

/-- Closed form of the output torque `torque[j]` of `composite_newton_euler`. -/
def torqueC (robo : Robot K) (geom : Geom K) (j : ℕ) : K :=
  if robo.sigma j = 2 then 0
  else FC robo geom j ⬝ᵥ jaj robo j +
    (robo.fric_s j + robo.fric_v j + robo.tau_ia j)

/-- Closed form of the link accelerations `grandVp[j]` produced by
`direct_dynamic_model`. -/
def VpD (robo : Robot K) (geom : Geom K) : ℕ → V6 K
  | 0 =>
    if robo.is_floating then matInv (Istar robo geom 0) *ᵥ Bstar robo geom 0
    else Sum.elim (robo.vdot0 - robo.G) robo.w0
  | j + 1 =>
    let e1 := jTant geom (j + 1) *ᵥ VpD robo geom (robo.ant (j + 1)) +
      compute_gamma robo geom (j + 1)
    let qdd :=
      if robo.sigma (j + 1) = 2 then 0
      else hInvD robo geom (j + 1) * tauD robo geom (j + 1) -
        jahD robo geom (j + 1) ⬝ᵥ e1
    jTant geom (j + 1) *ᵥ VpD robo geom (robo.ant (j + 1)) +
      (compute_gamma robo geom (j + 1) + qdd • jaj robo (j + 1))
termination_by j => j
decreasing_by
  all_goals exact robo.ant_lt (j + 1) (Nat.succ_pos j)

/-- Closed form of the joint acceleration `qddot[j]` produced by
`direct_dynamic_model` (intended for `1 ≤ j`). -/
def qddotD (robo : Robot K) (geom : Geom K) (j : ℕ) : K :=
  if robo.sigma j = 2 then 0
  else hInvD robo geom j * tauD robo geom j -
    jahD robo geom j ⬝ᵥ
      (jTant geom j *ᵥ VpD robo geom (robo.ant j) + compute_gamma robo geom j)

/-- Loop invariant of the star backward recursion: after processing indices
`NL-1, …, m`, every star inertia and bias holds its initial value plus the
contributions of its already-processed children, and the per-joint scalars of
the processed joints hold their closed forms. -/
def StarInv (robo : Robot K) (geom : Geom K) (m : ℕ) : Prop :=
  (∀ i, (starUpTo robo geom m).star_inertia i =
      grandJ robo i + ∑ k ∈ (children robo i).filter (fun k => m ≤ k),
        (jTant geom k)ᵀ * kInertiaOf robo k (Istar robo geom k) * jTant geom k) ∧
  (∀ i, (starUpTo robo geom m).star_beta i =
      compute_beta robo geom i - ∑ k ∈ (children robo i).filter (fun k => m ≤ k),
        (jTant geom k)ᵀ *ᵥ alphaD robo geom k) ∧
  (∀ k, m ≤ k → 0 < k → k < robo.NL →
      (starUpTo robo geom m).h_inv k = hInvD robo geom k ∧
      (starUpTo robo geom m).jah k = jahD robo geom k ∧
      (starUpTo robo geom m).tau k = tauD robo geom k)

/-- Loop invariant of the composite backward recursion: after processing
indices `NL-1, …, m`, every running total and composite bias holds its initial
value plus the contributions of its already-processed children, and the 6×6
composite inertia is the spatial assembly of the current totals. -/
def CompInv (robo : Robot K) (geom : Geom K) (m : ℕ) : Prop :=
  (∀ i, (compUpTo robo geom m).comp_inertia3 i =
      robo.J i + ∑ k ∈ (children robo i).filter (fun k => m ≤ k),
        (geom.antRj k * compJ3 robo geom k * (geom.antRj k)ᵀ
          - (skew (geom.antPj k) * skew (geom.antRj k *ᵥ compMS robo geom k)
              + (skew (geom.antPj k) *
                 skew (geom.antRj k *ᵥ compMS robo geom k))ᵀ)
          + compM robo k • (skew (geom.antPj k) * (skew (geom.antPj k))ᵀ))) ∧
  (∀ i, (compUpTo robo geom m).comp_ms i =
      robo.MS i + ∑ k ∈ (children robo i).filter (fun k => m ≤ k),
        (geom.antRj k *ᵥ compMS robo geom k + compM robo k • geom.antPj k)) ∧
  (∀ i, (compUpTo robo geom m).comp_mass i =
      robo.M i + ∑ k ∈ (children robo i).filter (fun k => m ≤ k), compM robo k) ∧
  (∀ i, (compUpTo robo geom m).composite_inertia i =
      inertia_spatial ((compUpTo robo geom m).comp_inertia3 i)
        ((compUpTo robo geom m).comp_ms i) ((compUpTo robo geom m).comp_mass i)) ∧
  (∀ i, (compUpTo robo geom m).composite_beta i =
      compute_beta robo geom i + ∑ k ∈ (children robo i).filter (fun k => m ≤ k),
        ((jTant geom k)ᵀ *ᵥ Bcomp robo geom k
          - (jTant geom k)ᵀ *ᵥ
              (Icomp robo geom k *ᵥ compute_zeta robo geom robo.qddot k)))

/-- The concrete test field: the five-element field on `Fin 5`, with an
explicitly tabulated inverse so that every operation evaluates by `decide`. -/
instance instFieldFin5 : Field (Fin 5) :=
  { (inferInstanceAs (CommRing (Fin 5))) with
    inv := fun x => ![0, 1, 3, 2, 4] x
    div := fun a b => a * ![0, 1, 3, 2, 4] b
    div_eq_mul_inv := fun _ _ => rfl
    exists_pair_ne := ⟨0, 1, by decide⟩
    mul_inv_cancel := by decide
    inv_zero := by decide
    nnqsmul := _
    qsmul := _ }

/-- Concrete geometric data: identity rotations, zero translations and
angular velocities. -/
def geomZ : Geom (Fin 5) :=
  { antRj := fun _ => 1
    antPj := fun _ => 0
    w := fun _ => 0
    wi := fun _ => 0 }

/-- Concrete template robot: a fixed base and one revolute joint, every
physical parameter zero. -/
def robo0 : Robot (Fin 5) :=
  { NL := 2
    ant := fun _ => 0
    ant_lt := fun _ hj => hj
    sigma := fun _ => 0
    J := fun _ => 0
    MS := fun _ => 0
    M := fun _ => 0
    IA := fun _ => 0
    GAM := fun _ => 0
    qdot := fun _ => 0
    qddot := fun _ => 0
    Fex := fun _ => 0
    Nex := fun _ => 0
    fric_s := fun _ => 0
    fric_v := fun _ => 0
    tau_ia := fun _ => 0
    is_floating := false
    vdot0 := 0
    w0 := 0
    G := 0 }

/-- Concrete robot with a nonzero actuator-rotor torque `tau_ia`. -/
def roboC3 : Robot (Fin 5) := { robo0 with tau_ia := fun _ => 3 }

/-- Concrete robot whose joint 1 is fixed (`sigma = 2`) with a nonzero joint
velocity. -/
def roboC10 : Robot (Fin 5) := { robo0 with sigma := fun _ => 2, qdot := fun _ => 1 }

/-- The rational field, wrapped so that every instance on it (`Zero`,
`CommRing`, `DecidableEq`, ...) is found through the single `Field KQ`
instance below, exactly as in the generic development. -/
def KQ : Type := ℚ

instance instFieldKQ : Field KQ := inferInstanceAs (Field ℚ)

instance instDecidableEqKQ : DecidableEq KQ := inferInstanceAs (DecidableEq ℚ)

/-- Concrete geometric data over `KQ`: identity rotations, zero translations
and angular velocities. -/
def geomQ : Geom KQ :=
  { antRj := fun _ => 1
    antPj := fun _ => 0
    w := fun _ => 0
    wi := fun _ => 0 }

/-- Concrete floating-base robot over ℚ with no links and an identically zero
(hence singular) base inertia. -/
def roboC6Q : Robot KQ :=
  { NL := 1
    ant := fun _ => 0
    ant_lt := fun _ hj => hj
    sigma := fun _ => 0
    J := fun _ => 0
    MS := fun _ => 0
    M := fun _ => 0
    IA := fun _ => 0
    GAM := fun _ => 0
    qdot := fun _ => 0
    qddot := fun _ => 0
    Fex := fun _ => 0
    Nex := fun _ => 0
    fric_s := fun _ => 0
    fric_v := fun _ => 0
    tau_ia := fun _ => 0
    is_floating := true
    vdot0 := 0
    w0 := 0
    G := 0 }

/-- Concrete robot with unit link inertia and mass and a nonzero prescribed
joint acceleration, used for the round-trip test. -/
def roboRT0 : Robot (Fin 5) :=
  { robo0 with
    J := fun _ => 1
    M := fun _ => 1
    qdot := fun _ => 1
    qddot := fun j => if j = 1 then 2 else 0 }

/-- The round-trip robot: `roboRT0` with the applied torques `GAM` set to the
torques produced by the composite inverse-dynamics recursion. -/
def roboRT : Robot (Fin 5) :=
  { roboRT0 with
    GAM := fun j => (composite_newton_euler roboRT0 geomZ).torque j }

/-- Geometric data with a nonzero antecedent angular velocity `wi`. -/
def geomW : Geom (Fin 5) := { geomZ with wi := fun _ => ![1, 0, 0] }

-- ==== THEOREMS ====

theorem skew_transpose (v : V3 K) : (skew v)ᵀ = -skew v := by
  ext i j
  fin_cases i <;> fin_cases j <;> simp [skew]

theorem skew_add (a b : V3 K) : skew (a + b) = skew a + skew b := by
  ext i j
  fin_cases i <;> fin_cases j <;> simp [skew] <;> ring

theorem skew_smul (c : K) (a : V3 K) : skew (c • a) = c • skew a := by
  ext i j
  fin_cases i <;> fin_cases j <;> simp [skew] <;> ring

theorem vecMulVec_mulVec_eq (u v x : V6 K) :
    Matrix.vecMulVec u v *ᵥ x = (v ⬝ᵥ x) • u := by
  ext i
  simp only [Matrix.mulVec, Matrix.vecMulVec_apply, dotProduct, Pi.smul_apply,
    smul_eq_mul, Finset.sum_mul]
  exact Finset.sum_congr rfl fun j _ => by ring

theorem vecMulVec_transpose_eq (u v : V6 K) :
    (Matrix.vecMulVec u v)ᵀ = Matrix.vecMulVec v u := by
  ext i j
  simp [Matrix.vecMulVec_apply, mul_comm]

theorem sum_mulVec {ι : Type} (s : Finset ι) (A : ι → M6 K) (x : V6 K) :
    (∑ k ∈ s, A k) *ᵥ x = ∑ k ∈ s, A k *ᵥ x := by
  ext i
  simp only [Matrix.mulVec, dotProduct, Matrix.sum_apply, Finset.sum_apply,
    Finset.sum_mul]
  exact Finset.sum_comm

theorem dotProduct_mulVec_symm (A : M6 K) (hA : Aᵀ = A) (a x : V6 K) :
    (A *ᵥ a) ⬝ᵥ x = a ⬝ᵥ (A *ᵥ x) := by
  nth_rewrite 1 [← hA]
  rw [Matrix.mulVec_transpose, ← Matrix.dotProduct_mulVec]

theorem matInv_mulVec_cancel (A : M6 K) (h : IsUnit A.det) (x : V6 K) :
    A *ᵥ (matInv A *ᵥ x) = x := by
  have hd : A.det ≠ 0 := by
    intro h0
    rw [h0] at h
    exact (by simpa using h : ¬IsUnit (0 : K)) h
  rw [Matrix.mulVec_mulVec, matInv, if_neg hd, Matrix.mul_smul,
    Matrix.mul_adjugate, smul_smul, inv_mul_cancel₀ hd, one_smul,
    Matrix.one_mulVec]

theorem matInv_cancel_mulVec (A : M6 K) (h : IsUnit A.det) (x : V6 K) :
    matInv A *ᵥ (A *ᵥ x) = x := by
  have hd : A.det ≠ 0 := by
    intro h0
    rw [h0] at h
    exact (by simpa using h : ¬IsUnit (0 : K)) h
  rw [Matrix.mulVec_mulVec, matInv, if_neg hd, Matrix.smul_mul,
    Matrix.adjugate_mul, smul_smul, inv_mul_cancel₀ hd, one_smul,
    Matrix.one_mulVec]

theorem Istar_eq (robo : Robot K) (geom : Geom K) (j : ℕ) :
    Istar robo geom j = grandJ robo j + ∑ k ∈ children robo j,
      (jTant geom k)ᵀ * kInertiaOf robo k (Istar robo geom k) * jTant geom k := by
  rw [Istar]
  rw [Finset.sum_attach (children robo j)
    (fun k => (jTant geom k)ᵀ * kInertiaOf robo k (Istar robo geom k) * jTant geom k)]

theorem Bstar_eq (robo : Robot K) (geom : Geom K) (j : ℕ) :
    Bstar robo geom j = compute_beta robo geom j - ∑ k ∈ children robo j,
      (jTant geom k)ᵀ *ᵥ alphaD robo geom k := by
  rw [Bstar]
  rw [Finset.sum_attach (children robo j)
    (fun k => (jTant geom k)ᵀ *ᵥ
      (kInertiaOf robo k (Istar robo geom k) *ᵥ compute_gamma robo geom k
        + tauOf robo k (Bstar robo geom k) • jahD robo geom k
        - Bstar robo geom k))]
  simp only [alphaD, tauD]

theorem compM_eq (robo : Robot K) (j : ℕ) :
    compM robo j = robo.M j + ∑ k ∈ children robo j, compM robo k := by
  rw [compM]
  rw [Finset.sum_attach (children robo j) (fun k => compM robo k)]

theorem compMS_eq (robo : Robot K) (geom : Geom K) (j : ℕ) :
    compMS robo geom j = robo.MS j + ∑ k ∈ children robo j,
      (geom.antRj k *ᵥ compMS robo geom k + compM robo k • geom.antPj k) := by
  rw [compMS]
  rw [Finset.sum_attach (children robo j)
    (fun k => geom.antRj k *ᵥ compMS robo geom k + compM robo k • geom.antPj k)]

theorem compJ3_eq (robo : Robot K) (geom : Geom K) (j : ℕ) :
    compJ3 robo geom j = robo.J j + ∑ k ∈ children robo j,
      (geom.antRj k * compJ3 robo geom k * (geom.antRj k)ᵀ
        - (skew (geom.antPj k) * skew (geom.antRj k *ᵥ compMS robo geom k)
            + (skew (geom.antPj k) *
               skew (geom.antRj k *ᵥ compMS robo geom k))ᵀ)
        + compM robo k • (skew (geom.antPj k) * (skew (geom.antPj k))ᵀ)) := by
  rw [compJ3]
  rw [Finset.sum_attach (children robo j)
    (fun k => geom.antRj k * compJ3 robo geom k * (geom.antRj k)ᵀ
      - (skew (geom.antPj k) * skew (geom.antRj k *ᵥ compMS robo geom k)
          + (skew (geom.antPj k) *
             skew (geom.antRj k *ᵥ compMS robo geom k))ᵀ)
      + compM robo k • (skew (geom.antPj k) * (skew (geom.antPj k))ᵀ))]

theorem Bcomp_eq (robo : Robot K) (geom : Geom K) (j : ℕ) :
    Bcomp robo geom j = compute_beta robo geom j + ∑ k ∈ children robo j,
      ((jTant geom k)ᵀ *ᵥ Bcomp robo geom k
        - (jTant geom k)ᵀ *ᵥ
            (Icomp robo geom k *ᵥ compute_zeta robo geom robo.qddot k)) := by
  rw [Bcomp]
  rw [Finset.sum_attach (children robo j)
    (fun k => (jTant geom k)ᵀ *ᵥ Bcomp robo geom k
      - (jTant geom k)ᵀ *ᵥ
          (Icomp robo geom k *ᵥ compute_zeta robo geom robo.qddot k))]

theorem VpC_zero (robo : Robot K) (geom : Geom K) :
    VpC robo geom 0 =
      (if robo.is_floating then matInv (Icomp robo geom 0) *ᵥ Bcomp robo geom 0
       else Sum.elim (robo.vdot0 - robo.G) robo.w0) := by
  rw [VpC]

theorem VpC_succ (robo : Robot K) (geom : Geom K) (j : ℕ) :
    VpC robo geom (j + 1) =
      jTant geom (j + 1) *ᵥ VpC robo geom (robo.ant (j + 1)) +
        compute_zeta robo geom robo.qddot (j + 1) := by
  rw [VpC]

theorem VpD_zero (robo : Robot K) (geom : Geom K) :
    VpD robo geom 0 =
      (if robo.is_floating then matInv (Istar robo geom 0) *ᵥ Bstar robo geom 0
       else Sum.elim (robo.vdot0 - robo.G) robo.w0) := by
  rw [VpD]

theorem VpD_succ (robo : Robot K) (geom : Geom K) (j : ℕ) :
    VpD robo geom (j + 1) =
      jTant geom (j + 1) *ᵥ VpD robo geom (robo.ant (j + 1)) +
        (compute_gamma robo geom (j + 1) +
          qddotD robo geom (j + 1) • jaj robo (j + 1)) := by
  rw [VpD, qddotD]

theorem starUpTo_stop (robo : Robot K) (geom : Geom K) (m : ℕ)
    (h : robo.NL ≤ m) : starUpTo robo geom m = starInit robo geom := by
  simp [starUpTo, Nat.sub_eq_zero_of_le h]

theorem starUpTo_peel (robo : Robot K) (geom : Geom K) (m : ℕ)
    (h : m < robo.NL) :
    starUpTo robo geom m = starStep robo geom (starUpTo robo geom (m + 1)) m := by
  have h1 : robo.NL - m = (robo.NL - (m + 1)) + 1 := by omega
  simp only [starUpTo, h1, List.range'_succ, List.reverse_cons,
    List.foldl_append, List.foldl_cons, List.foldl_nil]

theorem starBack_eq (robo : Robot K) (geom : Geom K) :
    starBack robo geom = starUpTo robo geom 0 := by
  simp [starBack, starUpTo, List.range_eq_range']

theorem compUpTo_stop (robo : Robot K) (geom : Geom K) (m : ℕ)
    (h : robo.NL ≤ m) : compUpTo robo geom m = compInit robo geom := by
  simp [compUpTo, Nat.sub_eq_zero_of_le h]

theorem compUpTo_peel (robo : Robot K) (geom : Geom K) (m : ℕ)
    (h : m < robo.NL) :
    compUpTo robo geom m = compBackStep robo geom (compUpTo robo geom (m + 1)) m := by
  have h1 : robo.NL - m = (robo.NL - (m + 1)) + 1 := by omega
  simp only [compUpTo, h1, List.range'_succ, List.reverse_cons,
    List.foldl_append, List.foldl_cons, List.foldl_nil]

theorem compBack_eq (robo : Robot K) (geom : Geom K) :
    compBack robo geom = compUpTo robo geom 0 := by
  simp [compBack, compUpTo, List.range_eq_range']

theorem compFwdUpTo_succ (robo : Robot K) (geom : Geom K) (C : CompState K)
    (m : ℕ) :
    compFwdUpTo robo geom C (m + 1) =
      compFwdStep robo geom C (compFwdUpTo robo geom C m) m := by
  simp [compFwdUpTo, List.range_succ]

theorem dirFwdUpTo_succ (robo : Robot K) (geom : Geom K) (S : StarState K)
    (m : ℕ) :
    dirFwdUpTo robo geom S (m + 1) =
      dirFwdStep robo geom S (dirFwdUpTo robo geom S m) m := by
  simp [dirFwdUpTo, List.range_succ]

theorem starStep_star_inertia (robo : Robot K) (geom : Geom K)
    (s : StarState K) (m : ℕ) (hm : m ≠ 0) :
    (starStep robo geom s m).star_inertia =
      Function.update s.star_inertia (robo.ant m)
        (s.star_inertia (robo.ant m) +
          (jTant geom m)ᵀ * kInertiaOf robo m (s.star_inertia m) * jTant geom m) := by
  simp [starStep, hm, compute_star_terms, compute_tau, kInertiaOf]

theorem starStep_star_beta (robo : Robot K) (geom : Geom K)
    (s : StarState K) (m : ℕ) (hm : m ≠ 0) :
    (starStep robo geom s m).star_beta =
      Function.update s.star_beta (robo.ant m)
        (s.star_beta (robo.ant m) - (jTant geom m)ᵀ *ᵥ
          (kInertiaOf robo m (s.star_inertia m) *ᵥ compute_gamma robo geom m
            + tauOf robo m (s.star_beta m) •
              ((jaj robo m ⬝ᵥ (s.star_inertia m *ᵥ jaj robo m) + robo.IA m)⁻¹ •
                (s.star_inertia m *ᵥ jaj robo m))
            - s.star_beta m)) := by
  simp [starStep, hm, compute_star_terms, compute_tau, kInertiaOf, tauOf]

theorem starStep_h_inv (robo : Robot K) (geom : Geom K)
    (s : StarState K) (m : ℕ) (hm : m ≠ 0) :
    (starStep robo geom s m).h_inv =
      Function.update s.h_inv m
        ((jaj robo m ⬝ᵥ (s.star_inertia m *ᵥ jaj robo m) + robo.IA m)⁻¹) := by
  simp [starStep, hm, compute_star_terms, compute_tau]

theorem starStep_jah (robo : Robot K) (geom : Geom K)
    (s : StarState K) (m : ℕ) (hm : m ≠ 0) :
    (starStep robo geom s m).jah =
      Function.update s.jah m
        ((jaj robo m ⬝ᵥ (s.star_inertia m *ᵥ jaj robo m) + robo.IA m)⁻¹ •
          (s.star_inertia m *ᵥ jaj robo m)) := by
  simp [starStep, hm, compute_star_terms, compute_tau]

theorem starStep_tau (robo : Robot K) (geom : Geom K)
    (s : StarState K) (m : ℕ) (hm : m ≠ 0) :
    (starStep robo geom s m).tau =
      Function.update s.tau m (tauOf robo m (s.star_beta m)) := by
  simp [starStep, hm, compute_star_terms, compute_tau, tauOf]

theorem compBackStep_comp_inertia3 (robo : Robot K) (geom : Geom K)
    (s : CompState K) (m : ℕ) (hm : m ≠ 0) :
    (compBackStep robo geom s m).comp_inertia3 =
      Function.update s.comp_inertia3 (robo.ant m)
        (s.comp_inertia3 (robo.ant m) +
          (geom.antRj m * s.comp_inertia3 m * (geom.antRj m)ᵀ
            - (skew (geom.antPj m) * skew (geom.antRj m *ᵥ s.comp_ms m)
                + (skew (geom.antPj m) * skew (geom.antRj m *ᵥ s.comp_ms m))ᵀ)
            + s.comp_mass m • (skew (geom.antPj m) * (skew (geom.antPj m))ᵀ))) := by
  simp [compBackStep, hm, compute_composite_inertia, compute_composite_beta,
    Matrix.mul_assoc]

theorem compBackStep_comp_ms (robo : Robot K) (geom : Geom K)
    (s : CompState K) (m : ℕ) (hm : m ≠ 0) :
    (compBackStep robo geom s m).comp_ms =
      Function.update s.comp_ms (robo.ant m)
        (s.comp_ms (robo.ant m) + geom.antRj m *ᵥ s.comp_ms m +
          s.comp_mass m • geom.antPj m) := by
  simp [compBackStep, hm, compute_composite_inertia, compute_composite_beta]

theorem compBackStep_comp_mass (robo : Robot K) (geom : Geom K)
    (s : CompState K) (m : ℕ) (hm : m ≠ 0) :
    (compBackStep robo geom s m).comp_mass =
      Function.update s.comp_mass (robo.ant m)
        (s.comp_mass (robo.ant m) + s.comp_mass m) := by
  simp [compBackStep, hm, compute_composite_inertia, compute_composite_beta]

theorem compBackStep_composite_inertia (robo : Robot K) (geom : Geom K)
    (s : CompState K) (m : ℕ) (hm : m ≠ 0) :
    (compBackStep robo geom s m).composite_inertia =
      Function.update s.composite_inertia (robo.ant m)
        (inertia_spatial
          ((compBackStep robo geom s m).comp_inertia3 (robo.ant m))
          ((compBackStep robo geom s m).comp_ms (robo.ant m))
          ((compBackStep robo geom s m).comp_mass (robo.ant m))) := by
  simp [compBackStep, hm, compute_composite_inertia, compute_composite_beta]

theorem compBackStep_composite_beta (robo : Robot K) (geom : Geom K)
    (s : CompState K) (m : ℕ) (hm : m ≠ 0) (hne : robo.ant m ≠ m) :
    (compBackStep robo geom s m).composite_beta =
      Function.update s.composite_beta (robo.ant m)
        (s.composite_beta (robo.ant m)
          + (jTant geom m)ᵀ *ᵥ s.composite_beta m
          - (jTant geom m)ᵀ *ᵥ
              (s.composite_inertia m *ᵥ compute_zeta robo geom robo.qddot m)) := by
  have hne' : m ≠ robo.ant m := Ne.symm hne
  simp [compBackStep, hm, compute_composite_inertia, compute_composite_beta,
    Function.update_apply, hne']

theorem compFwdStep_zero (robo : Robot K) (geom : Geom K) (C : CompState K)
    (s : CompFwd K) :
    compFwdStep robo geom C s 0 =
      { s with grandVp := compute_base_accel_composite robo C s.grandVp } := by
  simp [compFwdStep]

theorem compFwdStep_grandVp (robo : Robot K) (geom : Geom K) (C : CompState K)
    (s : CompFwd K) (j : ℕ) (hj : j ≠ 0) :
    (compFwdStep robo geom C s j).grandVp =
      Function.update s.grandVp j
        (jTant geom j *ᵥ s.grandVp (robo.ant j) +
          compute_zeta robo geom robo.qddot j) := by
  simp [compFwdStep, hj, compute_link_accel]

theorem compFwdStep_react (robo : Robot K) (geom : Geom K) (C : CompState K)
    (s : CompFwd K) (j : ℕ) (hj : j ≠ 0) :
    (compFwdStep robo geom C s j).react_wrench =
      Function.update s.react_wrench j
        (C.composite_inertia j *ᵥ
          (jTant geom j *ᵥ s.grandVp (robo.ant j) +
            compute_zeta robo geom robo.qddot j)
          - C.composite_beta j) := by
  simp [compFwdStep, hj, compute_link_accel, compute_reaction_wrench]

theorem compFwdStep_torque (robo : Robot K) (geom : Geom K) (C : CompState K)
    (s : CompFwd K) (j : ℕ) (hj : j ≠ 0) :
    (compFwdStep robo geom C s j).torque =
      Function.update s.torque j
        (if robo.sigma j = 2 then 0
         else (C.composite_inertia j *ᵥ
            (jTant geom j *ᵥ s.grandVp (robo.ant j) +
              compute_zeta robo geom robo.qddot j)
            - C.composite_beta j) ⬝ᵥ jaj robo j
          + (robo.fric_s j + robo.fric_v j + robo.tau_ia j)) := by
  simp [compFwdStep, hj, compute_link_accel, compute_reaction_wrench,
    compute_torque]

theorem dirFwdStep_zero (robo : Robot K) (geom : Geom K) (S : StarState K)
    (s : DirFwd K) :
    dirFwdStep robo geom S s 0 =
      { s with grandVp := compute_base_accel robo S s.grandVp } := by
  simp [dirFwdStep]

theorem dirFwdStep_qddot (robo : Robot K) (geom : Geom K) (S : StarState K)
    (s : DirFwd K) (j : ℕ) (hj : j ≠ 0) :
    (dirFwdStep robo geom S s j).qddot =
      Function.update s.qddot j
        (if robo.sigma j = 2 then 0
         else S.h_inv j * S.tau j - S.jah j ⬝ᵥ
           (jTant geom j *ᵥ s.grandVp (robo.ant j) + compute_gamma robo geom j)) := by
  simp [dirFwdStep, hj, compute_joint_accel]

theorem dirFwdStep_grandVp (robo : Robot K) (geom : Geom K) (S : StarState K)
    (s : DirFwd K) (j : ℕ) (hj : j ≠ 0) :
    (dirFwdStep robo geom S s j).grandVp =
      Function.update s.grandVp j
        (jTant geom j *ᵥ s.grandVp (robo.ant j) +
          (compute_gamma robo geom j +
            (if robo.sigma j = 2 then 0
             else S.h_inv j * S.tau j - S.jah j ⬝ᵥ
               (jTant geom j *ᵥ s.grandVp (robo.ant j) +
                 compute_gamma robo geom j)) •
            jaj robo j)) := by
  simp [dirFwdStep, hj, compute_joint_accel, compute_zeta, compute_link_accel]

theorem mem_children {robo : Robot K} {i k : ℕ} :
    k ∈ children robo i ↔ i < k ∧ k < robo.NL ∧ robo.ant k = i := by
  simp [children, Finset.mem_filter, Finset.mem_Ioo, and_assoc]

theorem filter_ge_insert {s : Finset ℕ} {m : ℕ} (hm : m ∈ s) :
    s.filter (fun k => m ≤ k) = insert m (s.filter (fun k => m + 1 ≤ k)) := by
  ext x
  simp only [Finset.mem_filter, Finset.mem_insert]
  constructor
  · rintro ⟨hx, hle⟩
    by_cases hxm : x = m
    · exact Or.inl hxm
    · exact Or.inr ⟨hx, by omega⟩
  · rintro (rfl | ⟨hx, h⟩)
    · exact ⟨hm, le_refl _⟩
    · exact ⟨hx, by omega⟩

theorem filter_ge_congr {s : Finset ℕ} {m : ℕ} (hm : m ∉ s) :
    s.filter (fun k => m ≤ k) = s.filter (fun k => m + 1 ≤ k) := by
  apply Finset.filter_congr
  intro x hx
  have hxm : x ≠ m := by rintro rfl; exact hm hx
  constructor <;> intro h <;> omega

theorem not_mem_filter_succ {s : Finset ℕ} {m : ℕ} :
    m ∉ s.filter (fun k => m + 1 ≤ k) := by
  simp only [Finset.mem_filter, not_and]
  intro _
  omega

theorem children_filter_full (robo : Robot K) (m : ℕ) :
    (children robo m).filter (fun k => m + 1 ≤ k) = children robo m :=
  Finset.filter_true_of_mem fun k hk => (mem_children.mp hk).1

theorem starInv_stop (robo : Robot K) (geom : Geom K) (m : ℕ)
    (h : robo.NL ≤ m) : StarInv robo geom m := by
  rw [StarInv, starUpTo_stop robo geom m h]
  have he : ∀ i, (children robo i).filter (fun k => m ≤ k) = ∅ := fun i =>
    Finset.filter_false_of_mem fun k hk => by
      have := (mem_children.mp hk).2.1
      omega
  refine ⟨fun i => ?_, fun i => ?_, fun k hmk h0 hk => ?_⟩
  · rw [he i]
    simp [starInit]
  · rw [he i]
    simp [starInit]
  · omega

theorem starInv_step (robo : Robot K) (geom : Geom K) (m : ℕ)
    (hm : m < robo.NL) (ih : StarInv robo geom (m + 1)) :
    StarInv robo geom m := by
  obtain ⟨ihI, ihB, ihS⟩ := ih
  by_cases h0 : m = 0
  · subst h0
    have hid : starStep robo geom (starUpTo robo geom 1) 0 =
        starUpTo robo geom 1 := by
      simp [starStep]
    rw [StarInv, starUpTo_peel robo geom 0 hm, hid]
    have hf : ∀ i, (children robo i).filter (fun k => 0 ≤ k) =
        (children robo i).filter (fun k => 0 + 1 ≤ k) := fun i => by
      apply Finset.filter_congr
      intro x hx
      have h1 : 0 < x := lt_of_le_of_lt (Nat.zero_le i) (mem_children.mp hx).1
      constructor <;> intro _ <;> omega
    refine ⟨fun i => ?_, fun i => ?_, fun k hmk hk0 hkNL => ?_⟩
    · rw [hf i]
      exact ihI i
    · rw [hf i]
      exact ihB i
    · exact ihS k hk0 hk0 hkNL
  · have hpos : 0 < m := Nat.pos_of_ne_zero h0
    have hanm : robo.ant m < m := robo.ant_lt m hpos
    have hmem : m ∈ children robo (robo.ant m) :=
      mem_children.mpr ⟨hanm, hm, rfl⟩
    have hchm := children_filter_full robo m
    have hIm : (starUpTo robo geom (m + 1)).star_inertia m =
        Istar robo geom m := by
      rw [ihI m, hchm, ← Istar_eq]
    have hBm : (starUpTo robo geom (m + 1)).star_beta m =
        Bstar robo geom m := by
      rw [ihB m, hchm, ← Bstar_eq]
    rw [StarInv, starUpTo_peel robo geom m hm]
    refine ⟨fun i => ?_, fun i => ?_, fun k hmk hk0 hkNL => ?_⟩
    · rw [starStep_star_inertia robo geom _ m h0, hIm]
      by_cases hi : i = robo.ant m
      · subst hi
        rw [Function.update_same, ihI (robo.ant m), filter_ge_insert hmem,
          Finset.sum_insert not_mem_filter_succ]
        abel
      · rw [Function.update_noteq hi, ihI i,
          filter_ge_congr (fun hc => hi ((mem_children.mp hc).2.2.symm))]
    · rw [starStep_star_beta robo geom _ m h0, hIm, hBm]
      by_cases hi : i = robo.ant m
      · subst hi
        rw [Function.update_same, ihB (robo.ant m), filter_ge_insert hmem,
          Finset.sum_insert not_mem_filter_succ]
        have halpha :
            (kInertiaOf robo m (Istar robo geom m) *ᵥ compute_gamma robo geom m
              + tauOf robo m (Bstar robo geom m) •
                ((jaj robo m ⬝ᵥ (Istar robo geom m *ᵥ jaj robo m) + robo.IA m)⁻¹ •
                  (Istar robo geom m *ᵥ jaj robo m))
              - Bstar robo geom m) = alphaD robo geom m := by
          rw [alphaD, tauD, jahD, hInvD, hDenom]
        rw [halpha]
        abel
      · rw [Function.update_noteq hi, ihB i,
          filter_ge_congr (fun hc => hi ((mem_children.mp hc).2.2.symm))]
    · by_cases hk : k = m
      · subst hk
        refine ⟨?_, ?_, ?_⟩
        · rw [starStep_h_inv robo geom _ k h0, Function.update_same, hIm,
            hInvD, hDenom]
        · rw [starStep_jah robo geom _ k h0, Function.update_same, hIm,
            jahD, hInvD, hDenom]
        · rw [starStep_tau robo geom _ k h0, Function.update_same, hBm, tauD]
      · have hks : m + 1 ≤ k := by omega
        obtain ⟨e1, e2, e3⟩ := ihS k hks hk0 hkNL
        refine ⟨?_, ?_, ?_⟩
        · rw [starStep_h_inv robo geom _ m h0,
            Function.update_noteq (fun h => hk h), e1]
        · rw [starStep_jah robo geom _ m h0,
            Function.update_noteq (fun h => hk h), e2]
        · rw [starStep_tau robo geom _ m h0,
            Function.update_noteq (fun h => hk h), e3]

theorem starInv_all (robo : Robot K) (geom : Geom K) (m : ℕ) :
    StarInv robo geom m := by
  have key : ∀ n m, robo.NL ≤ m + n → StarInv robo geom m := by
    intro n
    induction n with
    | zero => exact fun m h => starInv_stop robo geom m (by omega)
    | succ n ih =>
      intro m h
      by_cases hm : m < robo.NL
      · exact starInv_step robo geom m hm (ih (m + 1) (by omega))
      · exact starInv_stop robo geom m (by omega)
  exact key robo.NL m (by omega)

theorem starBack_star_inertia (robo : Robot K) (geom : Geom K) (i : ℕ) :
    (starBack robo geom).star_inertia i = Istar robo geom i := by
  rw [starBack_eq, (starInv_all robo geom 0).1 i,
    Finset.filter_true_of_mem (fun k _ => Nat.zero_le k), ← Istar_eq]

theorem starBack_star_beta (robo : Robot K) (geom : Geom K) (i : ℕ) :
    (starBack robo geom).star_beta i = Bstar robo geom i := by
  rw [starBack_eq, (starInv_all robo geom 0).2.1 i,
    Finset.filter_true_of_mem (fun k _ => Nat.zero_le k), ← Bstar_eq]

theorem starBack_scalars (robo : Robot K) (geom : Geom K) (k : ℕ)
    (hk0 : 0 < k) (hkNL : k < robo.NL) :
    (starBack robo geom).h_inv k = hInvD robo geom k ∧
    (starBack robo geom).jah k = jahD robo geom k ∧
    (starBack robo geom).tau k = tauD robo geom k := by
  rw [starBack_eq]
  exact (starInv_all robo geom 0).2.2 k (Nat.zero_le k) hk0 hkNL

theorem compInv_stop (robo : Robot K) (geom : Geom K) (m : ℕ)
    (h : robo.NL ≤ m) : CompInv robo geom m := by
  rw [CompInv, compUpTo_stop robo geom m h]
  have he : ∀ i, (children robo i).filter (fun k => m ≤ k) = ∅ := fun i =>
    Finset.filter_false_of_mem fun k hk => by
      have := (mem_children.mp hk).2.1
      omega
  refine ⟨fun i => ?_, fun i => ?_, fun i => ?_, fun i => ?_, fun i => ?_⟩
  · rw [he i]; simp [compInit]
  · rw [he i]; simp [compInit]
  · rw [he i]; simp [compInit]
  · simp [compInit, grandJ]
  · rw [he i]; simp [compInit]

theorem compInv_step (robo : Robot K) (geom : Geom K) (m : ℕ)
    (hm : m < robo.NL) (ih : CompInv robo geom (m + 1)) :
    CompInv robo geom m := by
  obtain ⟨ihJ, ihMS, ihM, ihSp, ihB⟩ := ih
  by_cases h0 : m = 0
  · subst h0
    have hid : compBackStep robo geom (compUpTo robo geom 1) 0 =
        compUpTo robo geom 1 := by
      simp [compBackStep]
    rw [CompInv, compUpTo_peel robo geom 0 hm, hid]
    have hf : ∀ i, (children robo i).filter (fun k => 0 ≤ k) =
        (children robo i).filter (fun k => 0 + 1 ≤ k) := fun i => by
      apply Finset.filter_congr
      intro x hx
      have h1 : 0 < x := lt_of_le_of_lt (Nat.zero_le i) (mem_children.mp hx).1
      constructor <;> intro _ <;> omega
    exact ⟨fun i => by rw [hf i]; exact ihJ i, fun i => by rw [hf i]; exact ihMS i,
      fun i => by rw [hf i]; exact ihM i, ihSp,
      fun i => by rw [hf i]; exact ihB i⟩
  · have hpos : 0 < m := Nat.pos_of_ne_zero h0
    have hanm : robo.ant m < m := robo.ant_lt m hpos
    have hne : robo.ant m ≠ m := Nat.ne_of_lt hanm
    have hmem : m ∈ children robo (robo.ant m) :=
      mem_children.mpr ⟨hanm, hm, rfl⟩
    have hchm := children_filter_full robo m
    have hJm : (compUpTo robo geom (m + 1)).comp_inertia3 m =
        compJ3 robo geom m := by
      rw [ihJ m, hchm, ← compJ3_eq]
    have hMSm : (compUpTo robo geom (m + 1)).comp_ms m =
        compMS robo geom m := by
      rw [ihMS m, hchm, ← compMS_eq]
    have hMm : (compUpTo robo geom (m + 1)).comp_mass m = compM robo m := by
      rw [ihM m, hchm, ← compM_eq]
    have hSpm : (compUpTo robo geom (m + 1)).composite_inertia m =
        Icomp robo geom m := by
      rw [ihSp m, hJm, hMSm, hMm, Icomp]
    have hBm : (compUpTo robo geom (m + 1)).composite_beta m =
        Bcomp robo geom m := by
      rw [ihB m, hchm, ← Bcomp_eq]
    rw [CompInv, compUpTo_peel robo geom m hm]
    refine ⟨fun i => ?_, fun i => ?_, fun i => ?_, fun i => ?_, fun i => ?_⟩
    · rw [compBackStep_comp_inertia3 robo geom _ m h0, hJm, hMSm, hMm]
      by_cases hi : i = robo.ant m
      · subst hi
        rw [Function.update_same, ihJ (robo.ant m), filter_ge_insert hmem,
          Finset.sum_insert not_mem_filter_succ]
        abel
      · rw [Function.update_noteq hi, ihJ i,
          filter_ge_congr (fun hc => hi ((mem_children.mp hc).2.2.symm))]
    · rw [compBackStep_comp_ms robo geom _ m h0, hMSm, hMm]
      by_cases hi : i = robo.ant m
      · subst hi
        rw [Function.update_same, ihMS (robo.ant m), filter_ge_insert hmem,
          Finset.sum_insert not_mem_filter_succ]
        abel
      · rw [Function.update_noteq hi, ihMS i,
          filter_ge_congr (fun hc => hi ((mem_children.mp hc).2.2.symm))]
    · rw [compBackStep_comp_mass robo geom _ m h0, hMm]
      by_cases hi : i = robo.ant m
      · subst hi
        rw [Function.update_same, ihM (robo.ant m), filter_ge_insert hmem,
          Finset.sum_insert not_mem_filter_succ]
        ring
      · rw [Function.update_noteq hi, ihM i,
          filter_ge_congr (fun hc => hi ((mem_children.mp hc).2.2.symm))]
    · rw [compBackStep_composite_inertia robo geom _ m h0]
      by_cases hi : i = robo.ant m
      · subst hi
        rw [Function.update_same]
      · rw [Function.update_noteq hi,
          compBackStep_comp_inertia3 robo geom _ m h0, Function.update_noteq hi,
          compBackStep_comp_ms robo geom _ m h0, Function.update_noteq hi,
          compBackStep_comp_mass robo geom _ m h0, Function.update_noteq hi]
        exact ihSp i
    · rw [compBackStep_composite_beta robo geom _ m h0 hne, hSpm, hBm]
      by_cases hi : i = robo.ant m
      · subst hi
        rw [Function.update_same, ihB (robo.ant m), filter_ge_insert hmem,
          Finset.sum_insert not_mem_filter_succ]
        abel
      · rw [Function.update_noteq hi, ihB i,
          filter_ge_congr (fun hc => hi ((mem_children.mp hc).2.2.symm))]

theorem compInv_all (robo : Robot K) (geom : Geom K) (m : ℕ) :
    CompInv robo geom m := by
  have key : ∀ n m, robo.NL ≤ m + n → CompInv robo geom m := by
    intro n
    induction n with
    | zero => exact fun m h => compInv_stop robo geom m (by omega)
    | succ n ih =>
      intro m h
      by_cases hm : m < robo.NL
      · exact compInv_step robo geom m hm (ih (m + 1) (by omega))
      · exact compInv_stop robo geom m (by omega)
  exact key robo.NL m (by omega)

theorem compBack_comp_inertia3 (robo : Robot K) (geom : Geom K) (i : ℕ) :
    (compBack robo geom).comp_inertia3 i = compJ3 robo geom i := by
  rw [compBack_eq, (compInv_all robo geom 0).1 i,
    Finset.filter_true_of_mem (fun k _ => Nat.zero_le k), ← compJ3_eq]

theorem compBack_comp_ms (robo : Robot K) (geom : Geom K) (i : ℕ) :
    (compBack robo geom).comp_ms i = compMS robo geom i := by
  rw [compBack_eq, (compInv_all robo geom 0).2.1 i,
    Finset.filter_true_of_mem (fun k _ => Nat.zero_le k), ← compMS_eq]

theorem compBack_comp_mass (robo : Robot K) (geom : Geom K) (i : ℕ) :
    (compBack robo geom).comp_mass i = compM robo i := by
  rw [compBack_eq, (compInv_all robo geom 0).2.2.1 i,
    Finset.filter_true_of_mem (fun k _ => Nat.zero_le k), ← compM_eq]

theorem compBack_composite_inertia (robo : Robot K) (geom : Geom K) (i : ℕ) :
    (compBack robo geom).composite_inertia i = Icomp robo geom i := by
  have h := (compInv_all robo geom 0).2.2.2.1 i
  rw [compBack_eq, h, ← compBack_eq, compBack_comp_inertia3,
    compBack_comp_ms, compBack_comp_mass, Icomp]

theorem compBack_composite_beta (robo : Robot K) (geom : Geom K) (i : ℕ) :
    (compBack robo geom).composite_beta i = Bcomp robo geom i := by
  rw [compBack_eq, (compInv_all robo geom 0).2.2.2.2 i,
    Finset.filter_true_of_mem (fun k _ => Nat.zero_le k), ← Bcomp_eq]

theorem compFwdInv (robo : Robot K) (geom : Geom K) :
    ∀ m, ∀ j, j < m →
      (compFwdUpTo robo geom (compBack robo geom) m).grandVp j =
        VpC robo geom j ∧
      (0 < j →
        (compFwdUpTo robo geom (compBack robo geom) m).react_wrench j =
          FC robo geom j ∧
        (compFwdUpTo robo geom (compBack robo geom) m).torque j =
          torqueC robo geom j) := by
  intro m
  induction m with
  | zero => intro j hj; omega
  | succ m ih =>
    intro j hj
    rw [compFwdUpTo_succ]
    by_cases h0 : m = 0
    · subst h0
      have hj0 : j = 0 := by omega
      subst hj0
      rw [compFwdStep_zero]
      refine ⟨?_, fun h => by omega⟩
      show compute_base_accel_composite robo (compBack robo geom)
        ((compFwdUpTo robo geom (compBack robo geom) 0).grandVp) 0 = _
      rw [compute_base_accel_composite, Function.update_same,
        compBack_composite_inertia, compBack_composite_beta, VpC_zero]
    · obtain ⟨m', rfl⟩ : ∃ m', m = m' + 1 := ⟨m - 1, by omega⟩
      by_cases hjm : j = m' + 1
      · subst hjm
        have hVa : (compFwdUpTo robo geom (compBack robo geom) (m' + 1)).grandVp
            (robo.ant (m' + 1)) = VpC robo geom (robo.ant (m' + 1)) :=
          (ih (robo.ant (m' + 1)) (robo.ant_lt (m' + 1) (Nat.succ_pos m'))).1
        refine ⟨?_, fun _ => ⟨?_, ?_⟩⟩
        · rw [compFwdStep_grandVp robo geom _ _ (m' + 1) (Nat.succ_ne_zero m'),
            Function.update_same, hVa, ← VpC_succ]
        · rw [compFwdStep_react robo geom _ _ (m' + 1) (Nat.succ_ne_zero m'),
            Function.update_same, hVa, ← VpC_succ, compBack_composite_inertia,
            compBack_composite_beta, FC]
        · rw [compFwdStep_torque robo geom _ _ (m' + 1) (Nat.succ_ne_zero m'),
            Function.update_same, hVa, ← VpC_succ, compBack_composite_inertia,
            compBack_composite_beta, torqueC, FC]
      · have hj' : j < m' + 1 := by omega
        obtain ⟨e1, e2⟩ := ih j hj'
        refine ⟨?_, fun hpos => ?_⟩
        · rw [compFwdStep_grandVp robo geom _ _ (m' + 1) (Nat.succ_ne_zero m'),
            Function.update_noteq hjm, e1]
        · obtain ⟨f1, f2⟩ := e2 hpos
          constructor
          · rw [compFwdStep_react robo geom _ _ (m' + 1) (Nat.succ_ne_zero m'),
              Function.update_noteq hjm, f1]
          · rw [compFwdStep_torque robo geom _ _ (m' + 1) (Nat.succ_ne_zero m'),
              Function.update_noteq hjm, f2]

theorem dirFwdInv (robo : Robot K) (geom : Geom K) :
    ∀ m, m ≤ robo.NL → ∀ j, j < m →
      (dirFwdUpTo robo geom (starBack robo geom) m).grandVp j =
        VpD robo geom j ∧
      (0 < j →
        (dirFwdUpTo robo geom (starBack robo geom) m).qddot j =
          qddotD robo geom j) := by
  intro m
  induction m with
  | zero => intro _ j hj; omega
  | succ m ih =>
    intro hmNL j hj
    have hmNL' : m ≤ robo.NL := by omega
    rw [dirFwdUpTo_succ]
    by_cases h0 : m = 0
    · subst h0
      have hj0 : j = 0 := by omega
      subst hj0
      rw [dirFwdStep_zero]
      refine ⟨?_, fun h => by omega⟩
      show compute_base_accel robo (starBack robo geom)
        ((dirFwdUpTo robo geom (starBack robo geom) 0).grandVp) 0 = _
      rw [compute_base_accel, Function.update_same,
        starBack_star_inertia, starBack_star_beta, VpD_zero]
    · obtain ⟨m', rfl⟩ : ∃ m', m = m' + 1 := ⟨m - 1, by omega⟩
      obtain ⟨s1, s2, s3⟩ := starBack_scalars robo geom (m' + 1)
        (Nat.succ_pos m') (by omega)
      by_cases hjm : j = m' + 1
      · subst hjm
        have hVa : (dirFwdUpTo robo geom (starBack robo geom) (m' + 1)).grandVp
            (robo.ant (m' + 1)) = VpD robo geom (robo.ant (m' + 1)) :=
          (ih hmNL' (robo.ant (m' + 1)) (robo.ant_lt (m' + 1) (Nat.succ_pos m'))).1
        constructor
        · rw [dirFwdStep_grandVp robo geom _ _ (m' + 1) (Nat.succ_ne_zero m'),
            Function.update_same, hVa, s1, s2, s3, VpD_succ, qddotD]
        · intro _
          rw [dirFwdStep_qddot robo geom _ _ (m' + 1) (Nat.succ_ne_zero m'),
            Function.update_same, hVa, s1, s2, s3, qddotD]
      · have hj' : j < m' + 1 := by omega
        obtain ⟨e1, e2⟩ := ih hmNL' j hj'
        constructor
        · rw [dirFwdStep_grandVp robo geom _ _ (m' + 1) (Nat.succ_ne_zero m'),
            Function.update_noteq hjm, e1]
        · intro hpos
          rw [dirFwdStep_qddot robo geom _ _ (m' + 1) (Nat.succ_ne_zero m'),
            Function.update_noteq hjm, e2 hpos]

theorem composite_newton_euler_grandVp (robo : Robot K) (geom : Geom K)
    (j : ℕ) (hj : j < robo.NL) :
    (composite_newton_euler robo geom).grandVp j = VpC robo geom j :=
  (compFwdInv robo geom robo.NL j hj).1

theorem composite_newton_euler_react (robo : Robot K) (geom : Geom K)
    (j : ℕ) (h0 : 0 < j) (hj : j < robo.NL) :
    (composite_newton_euler robo geom).react_wrench j = FC robo geom j :=
  ((compFwdInv robo geom robo.NL j hj).2 h0).1

theorem composite_newton_euler_torque (robo : Robot K) (geom : Geom K)
    (j : ℕ) (h0 : 0 < j) (hj : j < robo.NL) :
    (composite_newton_euler robo geom).torque j = torqueC robo geom j :=
  ((compFwdInv robo geom robo.NL j hj).2 h0).2

theorem composite_newton_euler_inertia (robo : Robot K) (geom : Geom K)
    (i : ℕ) :
    (composite_newton_euler robo geom).composite_inertia i =
      Icomp robo geom i :=
  compBack_composite_inertia robo geom i

theorem composite_newton_euler_beta (robo : Robot K) (geom : Geom K)
    (i : ℕ) :
    (composite_newton_euler robo geom).composite_beta i = Bcomp robo geom i :=
  compBack_composite_beta robo geom i

theorem direct_dynamic_model_qddot (robo : Robot K) (geom : Geom K)
    (j : ℕ) (h0 : 0 < j) (hj : j < robo.NL) :
    (direct_dynamic_model robo geom).qddot j = qddotD robo geom j :=
  (dirFwdInv robo geom robo.NL le_rfl j hj).2 h0

theorem direct_dynamic_model_grandVp (robo : Robot K) (geom : Geom K)
    (j : ℕ) (hj : j < robo.NL) :
    (direct_dynamic_model robo geom).grandVp j = VpD robo geom j :=
  (dirFwdInv robo geom robo.NL le_rfl j hj).1

theorem direct_dynamic_model_star_inertia (robo : Robot K) (geom : Geom K)
    (i : ℕ) :
    (direct_dynamic_model robo geom).star_inertia i = Istar robo geom i :=
  starBack_star_inertia robo geom i

theorem direct_dynamic_model_star_beta (robo : Robot K) (geom : Geom K)
    (i : ℕ) :
    (direct_dynamic_model robo geom).star_beta i = Bstar robo geom i :=
  starBack_star_beta robo geom i

theorem direct_dynamic_model_scalars (robo : Robot K) (geom : Geom K)
    (k : ℕ) (hk0 : 0 < k) (hkNL : k < robo.NL) :
    (direct_dynamic_model robo geom).h_inv k = hInvD robo geom k ∧
    (direct_dynamic_model robo geom).jah k = jahD robo geom k ∧
    (direct_dynamic_model robo geom).tau k = tauD robo geom k :=
  starBack_scalars robo geom k hk0 hkNL

theorem jaj_fixed (robo : Robot K) (j : ℕ) (h : robo.sigma j = 2) :
    jaj robo j = 0 := by
  simp [jaj, h]

/-- C8: joint-kind selection in `compute_gamma` — for a revolute joint
(`sigma = 0`) the Coriolis-like cross term `skew(wi)·[0,0,q̇]` appears exactly
once, in the rotational half, and not in the translational half; for a
prismatic joint (`sigma = 1`) it is absent from the rotational half and
appears scaled by 2 in the translational half; the parent-centripetal term
`antRjᵀ·skew(w_ant)·skew(w_ant)·antPj` is present in the translational half in
both cases, so the two cross-term contributions are mutually exclusive. -/
theorem C8_gamma_joint_kind (robo : Robot K) (geom : Geom K) (j : ℕ) :
    (robo.sigma j = 0 →
      compute_gamma robo geom j =
        Sum.elim
          ((geom.antRj j)ᵀ *ᵥ (skew (geom.w (robo.ant j)) *ᵥ
            (skew (geom.w (robo.ant j)) *ᵥ geom.antPj j)))
          (skew (geom.wi j) *ᵥ ![0, 0, robo.qdot j])) ∧
    (robo.sigma j = 1 →
      compute_gamma robo geom j =
        Sum.elim
          ((geom.antRj j)ᵀ *ᵥ (skew (geom.w (robo.ant j)) *ᵥ
            (skew (geom.w (robo.ant j)) *ᵥ geom.antPj j))
            + (2 : K) • (skew (geom.wi j) *ᵥ ![0, 0, robo.qdot j]))
          0) := by
  constructor
  · intro h
    simp [compute_gamma, h]
  · intro h
    simp [compute_gamma, h]

theorem C8_gamma_joint_kind_witness :
    robo0.sigma 1 = 0 ∧
    compute_gamma robo0 geomZ 1 =
      Sum.elim
        ((geomZ.antRj 1)ᵀ *ᵥ (skew (geomZ.w (robo0.ant 1)) *ᵥ
          (skew (geomZ.w (robo0.ant 1)) *ᵥ geomZ.antPj 1)))
        (skew (geomZ.wi 1) *ᵥ ![0, 0, robo0.qdot 1]) :=
  ⟨rfl, (C8_gamma_joint_kind robo0 geomZ 1).1 rfl⟩

/-- C10 (amended): `compute_gamma` applies the coefficients `(1 - sigma)` and
`2*sigma` arithmetically, so for a fixed joint (`sigma = 2`) the rotational
half equals `-1` times the cross term `skew(wi)·[0,0,q̇]` and the translational
half gains `+4` times that cross term; consequently the fixed joint's
gyroscopic bias is nonzero whenever that cross term is nonzero (which gives
nonzero bias for generic inputs with `q̇ ≠ 0`, though not for all of them —
see the counterexample). -/
theorem C10_fixed_gamma (robo : Robot K) (geom : Geom K) (j : ℕ)
    (h : robo.sigma j = 2) :
    compute_gamma robo geom j =
      Sum.elim
        ((geom.antRj j)ᵀ *ᵥ (skew (geom.w (robo.ant j)) *ᵥ
          (skew (geom.w (robo.ant j)) *ᵥ geom.antPj j))
          + (4 : K) • (skew (geom.wi j) *ᵥ ![0, 0, robo.qdot j]))
        (-(skew (geom.wi j) *ᵥ ![0, 0, robo.qdot j])) ∧
    (skew (geom.wi j) *ᵥ ![0, 0, robo.qdot j] ≠ 0 →
      compute_gamma robo geom j ≠ 0) := by
  have heq : compute_gamma robo geom j =
      Sum.elim
        ((geom.antRj j)ᵀ *ᵥ (skew (geom.w (robo.ant j)) *ᵥ
          (skew (geom.w (robo.ant j)) *ᵥ geom.antPj j))
          + (4 : K) • (skew (geom.wi j) *ᵥ ![0, 0, robo.qdot j]))
        (-(skew (geom.wi j) *ᵥ ![0, 0, robo.qdot j])) := by
    simp only [compute_gamma, h, Nat.cast_ofNat]
    norm_num
  refine ⟨heq, fun hc h0 => hc ?_⟩
  funext i
  have h2 := congrFun h0 (Sum.inr i)
  rw [heq] at h2
  simpa using h2

/-- C10 counterexample: a fixed joint (`sigma = 2`) with nonzero joint
velocity `q̇ = 1` whose gyroscopic bias is nevertheless the zero vector
(zero angular velocities), refuting "whenever `qdot[j]` is a nonzero symbol
the fixed joint's gyroscopic bias is not zero". -/
theorem C10_fixed_gamma_counterexample :
    roboC10.sigma 1 = 2 ∧ roboC10.qdot 1 ≠ 0 ∧
    compute_gamma roboC10 geomZ 1 = 0 :=
  ⟨rfl, by decide, by decide⟩

theorem C10_fixed_gamma_witness : compute_gamma roboC10 geomW 1 ≠ 0 :=
  (C10_fixed_gamma roboC10 geomW 1 rfl).2 (by decide)

/-- C9: `compute_star_terms` divides by
`jaj[j]·(star_inertia[j]·jaj[j]) + IA[j]` for every non-base link with no
guard and no precondition check (`h_inv[j]` is the unconditional inverse of
that divisor for every joint kind); for a fixed joint (`sigma = 2`, so
`jaj[j] = 0`) the divisor reduces to the actuator inertia `IA[j]` alone, and
hence to `0` whenever `IA[j] = 0` — the division by zero of the claim (in
this field-valued embedding `0⁻¹ = 0`; in the source, sympy produces `zoo`). -/
theorem C9_unguarded_division (robo : Robot K) (geom : Geom K) (j : ℕ)
    (h0 : 0 < j) (hNL : j < robo.NL) :
    (direct_dynamic_model robo geom).h_inv j =
      (jaj robo j ⬝ᵥ
        ((direct_dynamic_model robo geom).star_inertia j *ᵥ jaj robo j)
        + robo.IA j)⁻¹ ∧
    (robo.sigma j = 2 →
      jaj robo j ⬝ᵥ
        ((direct_dynamic_model robo geom).star_inertia j *ᵥ jaj robo j)
        + robo.IA j = robo.IA j) ∧
    (robo.sigma j = 2 → robo.IA j = 0 →
      jaj robo j ⬝ᵥ
        ((direct_dynamic_model robo geom).star_inertia j *ᵥ jaj robo j)
        + robo.IA j = 0) := by
  have hfix : robo.sigma j = 2 →
      jaj robo j ⬝ᵥ
        ((direct_dynamic_model robo geom).star_inertia j *ᵥ jaj robo j)
        + robo.IA j = robo.IA j := by
    intro hσ
    rw [jaj_fixed robo j hσ, Matrix.zero_dotProduct, zero_add]
  refine ⟨?_, hfix, fun hσ hIA => by rw [hfix hσ, hIA]⟩
  rw [(direct_dynamic_model_scalars robo geom j h0 hNL).1,
    direct_dynamic_model_star_inertia, hInvD, hDenom]

theorem C9_unguarded_division_witness :
    (direct_dynamic_model roboC10 geomZ).h_inv 1 =
      (jaj roboC10 1 ⬝ᵥ
        ((direct_dynamic_model roboC10 geomZ).star_inertia 1 *ᵥ jaj roboC10 1)
        + roboC10.IA 1)⁻¹ ∧
    (roboC10.sigma 1 = 2 →
      jaj roboC10 1 ⬝ᵥ
        ((direct_dynamic_model roboC10 geomZ).star_inertia 1 *ᵥ jaj roboC10 1)
        + roboC10.IA 1 = roboC10.IA 1) ∧
    (roboC10.sigma 1 = 2 → roboC10.IA 1 = 0 →
      jaj roboC10 1 ⬝ᵥ
        ((direct_dynamic_model roboC10 geomZ).star_inertia 1 *ᵥ jaj roboC10 1)
        + roboC10.IA 1 = 0) :=
  C9_unguarded_division roboC10 geomZ 1 (by decide) (by decide)

/-- C2: the articulated elimination and propagation of
`direct_dynamic_model`, for every non-base link with `sigma[j] ∈ {0,1}`:
`h_inv[j] = 1/(jaj·(star_inertia[j]·jaj) + IA[j])`,
`tau[j] = jaj·star_beta[j] + GAM[j] - (fric_s(j)+fric_v(j))`,
`jah[j] = (star_inertia[j]·jaj)·h_inv[j]` and, in the top-down sweep,
`qddot[j] = h_inv[j]·tau[j] - jah[j]·(jTant[j]·grandVp[ant j] + gamma[j])`. -/
theorem C2_articulated_elimination (robo : Robot K) (geom : Geom K) (j : ℕ)
    (h0 : 0 < j) (hNL : j < robo.NL)
    (hσ : robo.sigma j = 0 ∨ robo.sigma j = 1) :
    (direct_dynamic_model robo geom).h_inv j =
      (jaj robo j ⬝ᵥ
        ((direct_dynamic_model robo geom).star_inertia j *ᵥ jaj robo j)
        + robo.IA j)⁻¹ ∧
    (direct_dynamic_model robo geom).tau j =
      jaj robo j ⬝ᵥ (direct_dynamic_model robo geom).star_beta j
        + robo.GAM j - (robo.fric_s j + robo.fric_v j) ∧
    (direct_dynamic_model robo geom).jah j =
      (direct_dynamic_model robo geom).h_inv j •
        ((direct_dynamic_model robo geom).star_inertia j *ᵥ jaj robo j) ∧
    (direct_dynamic_model robo geom).qddot j =
      (direct_dynamic_model robo geom).h_inv j *
          (direct_dynamic_model robo geom).tau j
        - (direct_dynamic_model robo geom).jah j ⬝ᵥ
            (jTant geom j *ᵥ
              (direct_dynamic_model robo geom).grandVp (robo.ant j)
              + compute_gamma robo geom j) := by
  have hσ2 : robo.sigma j ≠ 2 := by
    rcases hσ with h | h <;> omega
  obtain ⟨e1, e2, e3⟩ := direct_dynamic_model_scalars robo geom j h0 hNL
  have hant : robo.ant j < robo.NL := lt_trans (robo.ant_lt j h0) hNL
  refine ⟨?_, ?_, ?_, ?_⟩
  · rw [e1, direct_dynamic_model_star_inertia, hInvD, hDenom]
  · rw [e3, direct_dynamic_model_star_beta, tauD, tauOf, if_neg hσ2]
  · rw [e2, e1, direct_dynamic_model_star_inertia, jahD]
  · rw [direct_dynamic_model_qddot robo geom j h0 hNL, qddotD, if_neg hσ2,
      e1, e2, e3, direct_dynamic_model_grandVp robo geom (robo.ant j) hant]

theorem C2_articulated_elimination_witness :
    (direct_dynamic_model roboRT geomZ).h_inv 1 =
      (jaj roboRT 1 ⬝ᵥ
        ((direct_dynamic_model roboRT geomZ).star_inertia 1 *ᵥ jaj roboRT 1)
        + roboRT.IA 1)⁻¹ ∧
    (direct_dynamic_model roboRT geomZ).tau 1 =
      jaj roboRT 1 ⬝ᵥ (direct_dynamic_model roboRT geomZ).star_beta 1
        + roboRT.GAM 1 - (roboRT.fric_s 1 + roboRT.fric_v 1) ∧
    (direct_dynamic_model roboRT geomZ).jah 1 =
      (direct_dynamic_model roboRT geomZ).h_inv 1 •
        ((direct_dynamic_model roboRT geomZ).star_inertia 1 *ᵥ jaj roboRT 1) ∧
    (direct_dynamic_model roboRT geomZ).qddot 1 =
      (direct_dynamic_model roboRT geomZ).h_inv 1 *
          (direct_dynamic_model roboRT geomZ).tau 1
        - (direct_dynamic_model roboRT geomZ).jah 1 ⬝ᵥ
            (jTant geomZ 1 *ᵥ
              (direct_dynamic_model roboRT geomZ).grandVp (roboRT.ant 1)
              + compute_gamma roboRT geomZ 1) :=
  C2_articulated_elimination roboRT geomZ 1 (by decide) (by decide)
    (Or.inl rfl)

/-- C3 (amended): on the composite path, for a non-fixed joint the output
torque is `jaj[j]·reaction_wrench[j]` plus
`fric_s(j) + fric_v(j) + tau_ia(j)` — the actuator-rotor torque `tau_ia(j)`
does enter, contrary to the claim — and for `sigma[j] = 2` the torque is the
constant 0. -/
theorem C3_torque_formula (robo : Robot K) (geom : Geom K) (j : ℕ)
    (h0 : 0 < j) (hNL : j < robo.NL) :
    (robo.sigma j ≠ 2 →
      (composite_newton_euler robo geom).torque j =
        jaj robo j ⬝ᵥ (composite_newton_euler robo geom).react_wrench j
          + (robo.fric_s j + robo.fric_v j + robo.tau_ia j)) ∧
    (robo.sigma j = 2 → (composite_newton_euler robo geom).torque j = 0) := by
  rw [composite_newton_euler_torque robo geom j h0 hNL,
    composite_newton_euler_react robo geom j h0 hNL, torqueC]
  constructor
  · intro hσ
    rw [if_neg hσ, Matrix.dotProduct_comm]
  · intro hσ
    rw [if_pos hσ]

/-- C3 counterexample: a robot whose only nonzero parameter is the
actuator-rotor torque `tau_ia(1) = 3`: the torque output is `3`, while the
claim's formula `jaj·reaction_wrench + friction` evaluates to `0` — so the
actuator-rotor term does contribute to the non-fixed case. -/
theorem C3_torque_formula_counterexample :
    roboC3.sigma 1 ≠ 2 ∧
    (composite_newton_euler roboC3 geomZ).torque 1 = 3 ∧
    jaj roboC3 1 ⬝ᵥ (composite_newton_euler roboC3 geomZ).react_wrench 1
      + (roboC3.fric_s 1 + roboC3.fric_v 1) = 0 ∧
    (composite_newton_euler roboC3 geomZ).torque 1 ≠
      jaj roboC3 1 ⬝ᵥ (composite_newton_euler roboC3 geomZ).react_wrench 1
        + (roboC3.fric_s 1 + roboC3.fric_v 1) :=
  ⟨by decide, by decide, by decide, by decide⟩

theorem C3_torque_formula_witness :
    (roboC3.sigma 1 ≠ 2 →
      (composite_newton_euler roboC3 geomZ).torque 1 =
        jaj roboC3 1 ⬝ᵥ (composite_newton_euler roboC3 geomZ).react_wrench 1
          + (roboC3.fric_s 1 + roboC3.fric_v 1 + roboC3.tau_ia 1)) ∧
    (roboC3.sigma 1 = 2 →
      (composite_newton_euler roboC3 geomZ).torque 1 = 0) :=
  C3_torque_formula roboC3 geomZ 1 (by decide) (by decide)

/-- C4: with a fixed base (`is_floating = false`) no linear solve is
performed in either recursion and the base spatial acceleration is the
prescribed base acceleration combined with gravity: translational part
`vdot0 - G`, rotational part `w0`. -/
theorem C4_fixed_base_accel (robo : Robot K) (geom : Geom K)
    (hf : robo.is_floating = false) (hNL : 0 < robo.NL) :
    (composite_newton_euler robo geom).grandVp 0 =
      Sum.elim (robo.vdot0 - robo.G) robo.w0 ∧
    (direct_dynamic_model robo geom).grandVp 0 =
      Sum.elim (robo.vdot0 - robo.G) robo.w0 := by
  constructor
  · rw [composite_newton_euler_grandVp robo geom 0 hNL, VpC_zero, hf]
    simp
  · rw [direct_dynamic_model_grandVp robo geom 0 hNL, VpD_zero, hf]
    simp

theorem C4_fixed_base_accel_witness :
    (composite_newton_euler robo0 geomZ).grandVp 0 =
      Sum.elim (robo0.vdot0 - robo0.G) robo0.w0 ∧
    (direct_dynamic_model robo0 geomZ).grandVp 0 =
      Sum.elim (robo0.vdot0 - robo0.G) robo0.w0 :=
  C4_fixed_base_accel robo0 geomZ rfl (by decide)

/-- C5: for a fixed joint (`sigma[j] = 2`) the joint-motion-subspace vector
is the zero 6-vector, the composite-path torque output is exactly 0 and the
articulated-path joint acceleration is exactly 0, for every robot model and
geometry. -/
theorem C5_fixed_joint_outputs (robo : Robot K) (geom : Geom K) (j : ℕ)
    (h0 : 0 < j) (hNL : j < robo.NL) (hσ : robo.sigma j = 2) :
    jaj robo j = 0 ∧
    (composite_newton_euler robo geom).torque j = 0 ∧
    (direct_dynamic_model robo geom).qddot j = 0 := by
  refine ⟨jaj_fixed robo j hσ, ?_, ?_⟩
  · rw [composite_newton_euler_torque robo geom j h0 hNL, torqueC, if_pos hσ]
  · rw [direct_dynamic_model_qddot robo geom j h0 hNL, qddotD, if_pos hσ]

theorem C5_fixed_joint_outputs_witness :
    jaj roboC10 1 = 0 ∧
    (composite_newton_euler roboC10 geomZ).torque 1 = 0 ∧
    (direct_dynamic_model roboC10 geomZ).qddot 1 = 0 :=
  C5_fixed_joint_outputs roboC10 geomZ 1 (by decide) (by decide) rfl

/-- C6 (amended): when the base is floating and the star (resp. composite)
inertia of the base is singular, the base-acceleration solve fails with the
matrix library's generic non-invertible-matrix error rather than silently
producing a default — but the source defines no dedicated
`SingularBaseInertia` condition, so the error does not carry that
identification. -/
theorem C6_base_solve_failure (robo : Robot K) (geom : Geom K)
    (hf : robo.is_floating = true)
    (hd1 : ((starBack robo geom).star_inertia 0).det = 0)
    (hd2 : ((compBack robo geom).composite_inertia 0).det = 0) :
    direct_dynamic_base_checked robo geom =
      Except.error DynError.nonInvertibleMatrix ∧
    composite_base_checked robo geom =
      Except.error DynError.nonInvertibleMatrix := by
  constructor
  · rw [direct_dynamic_base_checked, compute_base_accel_checked, hf,
      if_pos rfl, if_pos hd1]
  · rw [composite_base_checked, compute_base_accel_checked, hf,
      if_pos rfl, if_pos hd2]

theorem inertia_spatial_transpose (inertia : M3 K) (ms : V3 K) (mass : K)
    (h : inertiaᵀ = inertia) :
    (inertia_spatial inertia ms mass)ᵀ = inertia_spatial inertia ms mass := by
  rw [inertia_spatial, Matrix.fromBlocks_transpose, Matrix.transpose_transpose,
    Matrix.transpose_smul, Matrix.transpose_one, h]

theorem grandJ_transpose (robo : Robot K) (hJ : ∀ j, (robo.J j)ᵀ = robo.J j)
    (j : ℕ) : (grandJ robo j)ᵀ = grandJ robo j :=
  inertia_spatial_transpose (robo.J j) (robo.MS j) (robo.M j) (hJ j)

theorem vecMulVec_smul_comm (c : K) (v : V6 K) :
    Matrix.vecMulVec (c • v) v = Matrix.vecMulVec v (c • v) := by
  ext i j
  simp only [Matrix.vecMulVec_apply, Pi.smul_apply, smul_eq_mul]
  ring

theorem kInertiaOf_transpose (robo : Robot K) (j : ℕ) (A : M6 K)
    (hA : Aᵀ = A) : (kInertiaOf robo j A)ᵀ = kInertiaOf robo j A := by
  rw [kInertiaOf, Matrix.transpose_sub, hA, vecMulVec_transpose_eq,
    ← vecMulVec_smul_comm]

theorem conj_transpose_symm (T A : M6 K) (hA : Aᵀ = A) :
    (Tᵀ * A * T)ᵀ = Tᵀ * A * T := by
  rw [Matrix.transpose_mul, Matrix.transpose_mul, Matrix.transpose_transpose,
    hA, Matrix.mul_assoc]

theorem Istar_transpose (robo : Robot K) (geom : Geom K)
    (hJ : ∀ j, (robo.J j)ᵀ = robo.J j) :
    ∀ k, (Istar robo geom k)ᵀ = Istar robo geom k := by
  have key : ∀ n k, robo.NL ≤ k + n →
      (Istar robo geom k)ᵀ = Istar robo geom k := by
    intro n
    induction n with
    | zero =>
      intro k hk
      have hch : children robo k = ∅ :=
        Finset.eq_empty_of_forall_not_mem fun c hc => by
          have := (mem_children.mp hc).2.1
          have := (mem_children.mp hc).1
          omega
      rw [Istar_eq, hch, Finset.sum_empty, Matrix.transpose_add,
        grandJ_transpose robo hJ]
      simp
    | succ n ih =>
      intro k hk
      rw [Istar_eq, Matrix.transpose_add, grandJ_transpose robo hJ,
        Matrix.transpose_sum]
      congr 1
      refine Finset.sum_congr rfl fun c hc => ?_
      have hck : k < c := (mem_children.mp hc).1
      exact conj_transpose_symm _ _
        (kInertiaOf_transpose robo c _ (ih c (by omega)))
  exact fun k => key robo.NL k (by omega)

theorem symm_child_term (R C S1 S2 : M3 K) (m : K) (hC : Cᵀ = C) :
    (R * C * Rᵀ - (S1 * S2 + (S1 * S2)ᵀ) + m • (S1 * S1ᵀ))ᵀ =
      R * C * Rᵀ - (S1 * S2 + (S1 * S2)ᵀ) + m • (S1 * S1ᵀ) := by
  simp only [Matrix.transpose_add, Matrix.transpose_sub, Matrix.transpose_smul,
    Matrix.transpose_mul, Matrix.transpose_transpose, hC, Matrix.mul_assoc]
  abel

theorem compJ3_transpose (robo : Robot K) (geom : Geom K)
    (hJ : ∀ j, (robo.J j)ᵀ = robo.J j) :
    ∀ k, (compJ3 robo geom k)ᵀ = compJ3 robo geom k := by
  have key : ∀ n k, robo.NL ≤ k + n →
      (compJ3 robo geom k)ᵀ = compJ3 robo geom k := by
    intro n
    induction n with
    | zero =>
      intro k hk
      have hch : children robo k = ∅ :=
        Finset.eq_empty_of_forall_not_mem fun c hc => by
          have := (mem_children.mp hc).2.1
          have := (mem_children.mp hc).1
          omega
      rw [compJ3_eq, hch, Finset.sum_empty, Matrix.transpose_add, hJ k]
      simp
    | succ n ih =>
      intro k hk
      rw [compJ3_eq, Matrix.transpose_add, hJ k, Matrix.transpose_sum]
      congr 1
      refine Finset.sum_congr rfl fun c hc => ?_
      have hck : k < c := (mem_children.mp hc).1
      exact symm_child_term _ _ _ _ _ (ih c (by omega))
  exact fun k => key robo.NL k (by omega)

/-- C7: provided every link's 3×3 rotational inertia tensor `robo.J j` is
symmetric, every 6×6 composite inertia matrix (composite path) and every 6×6
star inertia matrix (articulated path) is symmetric at every reachable state
of the backward aggregation sweeps — i.e. after the sweep has processed links
`NL-1, …, m` for any `m`, and at every link index `i`. -/
theorem C7_inertia_symmetry (robo : Robot K) (geom : Geom K)
    (hJ : ∀ j, (robo.J j)ᵀ = robo.J j) (m i : ℕ) :
    ((compUpTo robo geom m).composite_inertia i).IsSymm ∧
    ((starUpTo robo geom m).star_inertia i).IsSymm := by
  constructor
  · show ((compUpTo robo geom m).composite_inertia i)ᵀ =
      (compUpTo robo geom m).composite_inertia i
    obtain ⟨h1, _, _, h4, _⟩ := compInv_all robo geom m
    rw [h4 i]
    apply inertia_spatial_transpose
    rw [h1 i, Matrix.transpose_add, hJ i, Matrix.transpose_sum]
    congr 1
    refine Finset.sum_congr rfl fun c hc => ?_
    exact symm_child_term _ _ _ _ _ (compJ3_transpose robo geom hJ c)
  · show ((starUpTo robo geom m).star_inertia i)ᵀ =
      (starUpTo robo geom m).star_inertia i
    rw [(starInv_all robo geom m).1 i, Matrix.transpose_add,
      grandJ_transpose robo hJ, Matrix.transpose_sum]
    congr 1
    refine Finset.sum_congr rfl fun c _ => ?_
    exact conj_transpose_symm _ _
      (kInertiaOf_transpose robo c _ (Istar_transpose robo geom hJ c))

theorem skew_zero : skew (0 : V3 K) = 0 := by
  ext i j
  fin_cases i <;> fin_cases j <;>
    simp [skew, Matrix.vecHead, Matrix.vecTail]

theorem inertia_spatial_zero : inertia_spatial (0 : M3 K) 0 0 = 0 := by
  rw [inertia_spatial, skew_zero, Matrix.transpose_zero, zero_smul,
    Matrix.fromBlocks_zero]


theorem starInit_star_inertia (robo : Robot K) (geom : Geom K) (j : ℕ) :
    (starInit robo geom).star_inertia j = grandJ robo j := rfl

theorem compInit_composite_inertia (robo : Robot K) (geom : Geom K) (j : ℕ) :
    (compInit robo geom).composite_inertia j = grandJ robo j := rfl

theorem grandJ_det_zero (robo : Robot K) (j : ℕ) (hJ : robo.J j = 0)
    (hMS : robo.MS j = 0) (hM : robo.M j = 0) : (grandJ robo j).det = 0 := by
  rw [grandJ, hJ, hMS, hM, inertia_spatial_zero]
  exact Matrix.det_eq_zero_of_row_eq_zero (Sum.inl 0) (fun _ => rfl)

theorem roboC6Q_starBack : starBack roboC6Q geomQ = starInit roboC6Q geomQ := by
  rw [starBack_eq, starUpTo_peel roboC6Q geomQ 0 (by decide),
    starUpTo_stop roboC6Q geomQ 1 (by decide)]
  simp [starStep]

theorem roboC6Q_compBack : compBack roboC6Q geomQ = compInit roboC6Q geomQ := by
  rw [compBack_eq, compUpTo_peel roboC6Q geomQ 0 (by decide),
    compUpTo_stop roboC6Q geomQ 1 (by decide)]
  simp [compBackStep]

theorem roboC6Q_star_det :
    ((starBack roboC6Q geomQ).star_inertia 0).det = 0 := by
  rw [roboC6Q_starBack, starInit_star_inertia]
  exact grandJ_det_zero roboC6Q 0 rfl rfl rfl

theorem roboC6Q_comp_det :
    ((compBack roboC6Q geomQ).composite_inertia 0).det = 0 := by
  rw [roboC6Q_compBack, compInit_composite_inertia]
  exact grandJ_det_zero roboC6Q 0 rfl rfl rfl

/-- C6 counterexample: a floating-base robot with an identically zero (hence
singular) base inertia: both recursions fail with the generic
non-invertible-matrix error, not with a `SingularBaseInertia` error. -/
theorem C6_base_solve_failure_counterexample :
    direct_dynamic_base_checked roboC6Q geomQ ≠
      Except.error DynError.singularBaseInertia ∧
    composite_base_checked roboC6Q geomQ ≠
      Except.error DynError.singularBaseInertia ∧
    direct_dynamic_base_checked roboC6Q geomQ =
      Except.error DynError.nonInvertibleMatrix := by
  have hfl : roboC6Q.is_floating = true := rfl
  have h1 : direct_dynamic_base_checked roboC6Q geomQ =
      Except.error DynError.nonInvertibleMatrix := by
    rw [direct_dynamic_base_checked, compute_base_accel_checked]
    rw [if_pos hfl, if_pos roboC6Q_star_det]
  have h2 : composite_base_checked roboC6Q geomQ =
      Except.error DynError.nonInvertibleMatrix := by
    rw [composite_base_checked, compute_base_accel_checked]
    rw [if_pos hfl, if_pos roboC6Q_comp_det]
  refine ⟨?_, ?_, h1⟩
  · rw [h1]
    intro h
    exact absurd (Except.error.inj h) (by decide)
  · rw [h2]
    intro h
    exact absurd (Except.error.inj h) (by decide)


theorem inertia_spatial_add (A1 A2 : M3 K) (ms1 ms2 : V3 K) (m1 m2 : K) :
    inertia_spatial (A1 + A2) (ms1 + ms2) (m1 + m2) =
      inertia_spatial A1 ms1 m1 + inertia_spatial A2 ms2 m2 := by
  rw [inertia_spatial, inertia_spatial, inertia_spatial, skew_add,
    Matrix.transpose_add, add_smul, Matrix.fromBlocks_add]

theorem inertia_spatial_sum {ι : Type} (s : Finset ι) (A : ι → M3 K)
    (ms : ι → V3 K) (m : ι → K) :
    inertia_spatial (∑ k ∈ s, A k) (∑ k ∈ s, ms k) (∑ k ∈ s, m k) =
      ∑ k ∈ s, inertia_spatial (A k) (ms k) (m k) := by
  induction s using Finset.cons_induction with
  | empty => simpa using inertia_spatial_zero
  | cons a s ha ih =>
    rw [Finset.sum_cons, Finset.sum_cons, Finset.sum_cons, Finset.sum_cons,
      inertia_spatial_add, ih]

/-- The key consistency identity between the two aggregation styles: for a
special-orthogonal joint rotation, transforming a spatial inertia by the
screw transform (the articulated path's congruence) equals the 3×3/3×1/scalar
parallel-axis aggregation performed by `compute_composite_inertia`. -/
theorem screw_congruence (R : M3 K) (P : V3 K) (A : M3 K) (ms : V3 K) (m : K)
    (hR1 : Rᵀ * R = 1)
    (hsk : ∀ v : V3 K, R * skew v * Rᵀ = skew (R *ᵥ v)) :
    (screw_transform R P)ᵀ * inertia_spatial A ms m * screw_transform R P =
      inertia_spatial
        (R * A * Rᵀ
          - (skew P * skew (R *ᵥ ms) + (skew P * skew (R *ᵥ ms))ᵀ)
          + m • (skew P * (skew P)ᵀ))
        (R *ᵥ ms + m • P) m := by
  have hR2 : R * Rᵀ = 1 := Matrix.mul_eq_one_comm.mp hR1
  have hR2' : ∀ X : M3 K, R * (Rᵀ * X) = X := fun X => by
    rw [← Matrix.mul_assoc, hR2, Matrix.one_mul]
  have hsk' : ∀ v : V3 K, R * (skew v * Rᵀ) = skew (R *ᵥ v) := fun v => by
    rw [← Matrix.mul_assoc, hsk]
  have hsk2 : ∀ (v : V3 K) (X : M3 K),
      R * (skew v * (Rᵀ * X)) = skew (R *ᵥ v) * X := fun v X => by
    rw [← Matrix.mul_assoc, ← Matrix.mul_assoc, hsk]
  rw [screw_transform, inertia_spatial, inertia_spatial,
    Matrix.fromBlocks_transpose, Matrix.fromBlocks_multiply,
    Matrix.fromBlocks_multiply]
  rw [Matrix.fromBlocks_inj]
  refine ⟨?_, ?_, ?_, ?_⟩
  · simp only [Matrix.transpose_transpose, Matrix.transpose_zero,
      Matrix.mul_zero, Matrix.zero_mul, add_zero, Matrix.mul_smul,
      Matrix.smul_mul, Matrix.mul_one, Matrix.mul_assoc, hR2']
    rw [hR2]
  · simp only [Matrix.transpose_transpose, Matrix.transpose_zero,
      Matrix.mul_zero, Matrix.zero_mul, add_zero, zero_add, Matrix.mul_smul,
      Matrix.smul_mul, Matrix.mul_one, Matrix.mul_neg, Matrix.neg_mul,
      Matrix.mul_assoc, hR2', skew_transpose, skew_add, skew_smul,
      Matrix.transpose_add, Matrix.transpose_smul, Matrix.transpose_neg,
      neg_neg, hsk']
    module
  · simp only [Matrix.transpose_transpose, Matrix.transpose_zero,
      Matrix.transpose_neg, Matrix.transpose_mul, skew_transpose,
      Matrix.mul_zero, Matrix.zero_mul, add_zero, zero_add, Matrix.mul_smul,
      Matrix.smul_mul, Matrix.mul_one, Matrix.mul_neg, Matrix.neg_mul,
      Matrix.add_mul, Matrix.mul_assoc, neg_neg, hR2, skew_add, skew_smul,
      hsk']
    module
  · simp only [Matrix.transpose_transpose, Matrix.transpose_zero,
      Matrix.transpose_neg, Matrix.transpose_mul, skew_transpose,
      Matrix.mul_zero, Matrix.zero_mul, add_zero, zero_add, Matrix.mul_smul,
      Matrix.smul_mul, Matrix.mul_one, Matrix.mul_neg, Matrix.neg_mul,
      neg_add, Matrix.add_mul, Matrix.mul_add, sub_eq_add_neg,
      Matrix.mul_assoc, neg_neg, hR2', hsk', hsk2]
    module

theorem Icomp_children (robo : Robot K) (geom : Geom K)
    (hR : ∀ k, k < robo.NL → 0 < k →
      ((geom.antRj k)ᵀ * geom.antRj k = 1 ∧
        ∀ v : V3 K, geom.antRj k * skew v * (geom.antRj k)ᵀ =
          skew (geom.antRj k *ᵥ v)))
    (j : ℕ) :
    Icomp robo geom j = grandJ robo j + ∑ k ∈ children robo j,
      (jTant geom k)ᵀ * Icomp robo geom k * jTant geom k := by
  rw [Icomp, compJ3_eq, compMS_eq, compM_eq, inertia_spatial_add,
    inertia_spatial_sum]
  rw [grandJ]
  congr 1
  refine Finset.sum_congr rfl fun k hk => ?_
  obtain ⟨hk1, hk2, _⟩ := mem_children.mp hk
  obtain ⟨e1, e2⟩ := hR k hk2 (by omega)
  rw [jTant, Icomp, screw_congruence (geom.antRj k) (geom.antPj k)
    (compJ3 robo geom k) (compMS robo geom k) (compM robo k) e1 e2]

theorem kInertia_mulVec_jaj (robo : Robot K) (geom : Geom K) (k : ℕ)
    (hIA : robo.IA k = 0)
    (hk : robo.sigma k ≠ 2 →
      jaj robo k ⬝ᵥ (Istar robo geom k *ᵥ jaj robo k) ≠ 0) :
    kInertiaOf robo k (Istar robo geom k) *ᵥ jaj robo k = 0 := by
  by_cases hσ : robo.sigma k = 2
  · rw [jaj_fixed robo k hσ, Matrix.mulVec_zero]
  · rw [kInertiaOf, Matrix.sub_mulVec, vecMulVec_mulVec_eq, hIA, add_zero,
      smul_smul, Matrix.dotProduct_comm, mul_inv_cancel₀ (hk hσ), one_smul,
      sub_self]

theorem tauD_eq_wrench (robo : Robot K) (geom : Geom K) (j : ℕ)
    (h0 : 0 < j) (hNL : j < robo.NL)
    (hfric : robo.fric_s j = 0 ∧ robo.fric_v j = 0 ∧ robo.tau_ia j = 0)
    (hG : robo.GAM j = (composite_newton_euler robo geom).torque j)
    (hINVj : Istar robo geom j *ᵥ VpC robo geom j - Bstar robo geom j =
      FC robo geom j) :
    tauD robo geom j = jaj robo j ⬝ᵥ (Istar robo geom j *ᵥ VpC robo geom j) := by
  obtain ⟨hfs, hfv, hti⟩ := hfric
  rw [tauD, tauOf]
  by_cases hσ : robo.sigma j = 2
  · rw [if_pos hσ, jaj_fixed robo j hσ, Matrix.zero_dotProduct]
  · rw [if_neg hσ, hG, composite_newton_euler_torque robo geom j h0 hNL,
      torqueC, if_neg hσ, hfs, hfv, hti, ← hINVj]
    rw [Matrix.dotProduct_comm (Istar robo geom j *ᵥ VpC robo geom j -
      Bstar robo geom j) (jaj robo j), Matrix.dotProduct_sub]
    ring

/-- The articulated-body invariant: when the composite-path torques are fed
back as the applied torques `GAM` (with zero friction and actuator terms),
the star inertia/bias of every link reproduce the composite-path reaction
wrench along the composite-path acceleration field. -/
theorem star_wrench_invariant (robo : Robot K) (geom : Geom K)
    (hJ : ∀ j, (robo.J j)ᵀ = robo.J j)
    (hR : ∀ k, k < robo.NL → 0 < k →
      ((geom.antRj k)ᵀ * geom.antRj k = 1 ∧
        ∀ v : V3 K, geom.antRj k * skew v * (geom.antRj k)ᵀ =
          skew (geom.antRj k *ᵥ v)))
    (hIA : ∀ j, j < robo.NL → robo.IA j = 0)
    (hfric : ∀ j, j < robo.NL →
      robo.fric_s j = 0 ∧ robo.fric_v j = 0 ∧ robo.tau_ia j = 0)
    (hG : ∀ j, j < robo.NL → 0 < j →
      robo.GAM j = (composite_newton_euler robo geom).torque j)
    (hh : ∀ j, j < robo.NL → 0 < j → robo.sigma j ≠ 2 →
      jaj robo j ⬝ᵥ (Istar robo geom j *ᵥ jaj robo j) ≠ 0) :
    ∀ j, j < robo.NL →
      Istar robo geom j *ᵥ VpC robo geom j - Bstar robo geom j =
        FC robo geom j := by
  have key : ∀ n j, robo.NL ≤ j + n → j < robo.NL →
      Istar robo geom j *ᵥ VpC robo geom j - Bstar robo geom j =
        FC robo geom j := by
    intro n
    induction n with
    | zero =>
      intro j h1 h2
      omega
    | succ n ih =>
      intro j hn hj
      have hsum : ∀ k ∈ children robo j,
          ((jTant geom k)ᵀ * kInertiaOf robo k (Istar robo geom k) *
            jTant geom k) *ᵥ VpC robo geom j
            + (jTant geom k)ᵀ *ᵥ alphaD robo geom k =
          ((jTant geom k)ᵀ * Icomp robo geom k * jTant geom k) *ᵥ
            VpC robo geom j
            - ((jTant geom k)ᵀ *ᵥ Bcomp robo geom k
                - (jTant geom k)ᵀ *ᵥ
                    (Icomp robo geom k *ᵥ
                      compute_zeta robo geom robo.qddot k)) := by
        intro k hk
        obtain ⟨hjk, hkNL, hant⟩ := mem_children.mp hk
        have hk0 : 0 < k := by omega
        have ihk : Istar robo geom k *ᵥ VpC robo geom k -
            Bstar robo geom k = FC robo geom k := ih k (by omega) hkNL
        have hsym := Istar_transpose robo geom hJ k
        have hKa := kInertia_mulVec_jaj robo geom k (hIA k hkNL)
          (hh k hkNL hk0)
        have htau := tauD_eq_wrench robo geom k hk0 hkNL (hfric k hkNL)
          (hG k hkNL hk0) ihk
        have hja : (Istar robo geom k *ᵥ jaj robo k) ⬝ᵥ VpC robo geom k =
            tauD robo geom k := by
          rw [dotProduct_mulVec_symm _ hsym, htau]
        have hKform : kInertiaOf robo k (Istar robo geom k) =
            Istar robo geom k -
              Matrix.vecMulVec (jahD robo geom k)
                (Istar robo geom k *ᵥ jaj robo k) := by
          rw [kInertiaOf, jahD, hInvD, hDenom]
        obtain ⟨k', rfl⟩ : ∃ k', k = k' + 1 := ⟨k - 1, by omega⟩
        have hWv : jTant geom (k' + 1) *ᵥ VpC robo geom j =
            VpC robo geom (k' + 1) -
              compute_zeta robo geom robo.qddot (k' + 1) := by
          rw [VpC_succ, hant]
          abel
        simp only [← Matrix.mulVec_mulVec]
        rw [hWv, ← Matrix.mulVec_add, ← Matrix.mulVec_sub,
          ← Matrix.mulVec_sub]
        congr 1
        have hRHS : Icomp robo geom (k' + 1) *ᵥ
            (VpC robo geom (k' + 1) -
              compute_zeta robo geom robo.qddot (k' + 1))
            - (Bcomp robo geom (k' + 1)
                - Icomp robo geom (k' + 1) *ᵥ
                    compute_zeta robo geom robo.qddot (k' + 1)) =
            Istar robo geom (k' + 1) *ᵥ VpC robo geom (k' + 1) -
              Bstar robo geom (k' + 1) := by
          rw [FC] at ihk
          rw [Matrix.mulVec_sub]
          linear_combination -ihk
        have hz : kInertiaOf robo (k' + 1) (Istar robo geom (k' + 1)) *ᵥ
            (compute_gamma robo geom (k' + 1) +
              robo.qddot (k' + 1) • jaj robo (k' + 1)) =
            kInertiaOf robo (k' + 1) (Istar robo geom (k' + 1)) *ᵥ
              compute_gamma robo geom (k' + 1) := by
          rw [Matrix.mulVec_add, Matrix.mulVec_smul, hKa, smul_zero, add_zero]
        have hKv : kInertiaOf robo (k' + 1) (Istar robo geom (k' + 1)) *ᵥ
            VpC robo geom (k' + 1) =
            Istar robo geom (k' + 1) *ᵥ VpC robo geom (k' + 1) -
              tauD robo geom (k' + 1) • jahD robo geom (k' + 1) := by
          rw [hKform, Matrix.sub_mulVec, vecMulVec_mulVec_eq, hja]
        rw [hRHS, alphaD, compute_zeta, Matrix.mulVec_sub, hz, hKv]
        congr 1
        abel
      rw [FC, Istar_eq, Bstar_eq, Icomp_children robo geom hR j, Bcomp_eq,
        Matrix.add_mulVec, Matrix.add_mulVec, sum_mulVec, sum_mulVec]
      have hS : (∑ k ∈ children robo j,
            ((jTant geom k)ᵀ * kInertiaOf robo k (Istar robo geom k) *
              jTant geom k) *ᵥ VpC robo geom j)
          + ∑ k ∈ children robo j, (jTant geom k)ᵀ *ᵥ alphaD robo geom k =
          (∑ k ∈ children robo j,
            ((jTant geom k)ᵀ * Icomp robo geom k * jTant geom k) *ᵥ
              VpC robo geom j)
          - ∑ k ∈ children robo j,
              ((jTant geom k)ᵀ *ᵥ Bcomp robo geom k
                - (jTant geom k)ᵀ *ᵥ
                    (Icomp robo geom k *ᵥ
                      compute_zeta robo geom robo.qddot k)) := by
        rw [← Finset.sum_add_distrib, ← Finset.sum_sub_distrib]
        exact Finset.sum_congr rfl hsum
      linear_combination hS
  exact fun j hj => key robo.NL j (by omega) hj

theorem VpD_zero_eq_VpC (robo : Robot K) (geom : Geom K)
    (hINV0 : Istar robo geom 0 *ᵥ VpC robo geom 0 - Bstar robo geom 0 =
      FC robo geom 0)
    (hdet : robo.is_floating = true →
      IsUnit (Icomp robo geom 0).det ∧ IsUnit (Istar robo geom 0).det) :
    VpD robo geom 0 = VpC robo geom 0 := by
  by_cases hf : robo.is_floating = true
  · obtain ⟨hdc, hds⟩ := hdet hf
    have hVpC0 : VpC robo geom 0 =
        matInv (Icomp robo geom 0) *ᵥ Bcomp robo geom 0 := by
      rw [VpC_zero, if_pos hf]
    have h1 : Icomp robo geom 0 *ᵥ VpC robo geom 0 = Bcomp robo geom 0 := by
      rw [hVpC0, matInv_mulVec_cancel _ hdc]
    have h2 : Istar robo geom 0 *ᵥ VpC robo geom 0 = Bstar robo geom 0 := by
      have h3 := hINV0
      rw [FC, h1, sub_self] at h3
      exact sub_eq_zero.mp h3
    rw [VpD_zero, if_pos hf, ← h2, matInv_cancel_mulVec _ hds]
  · rw [VpD_zero, VpC_zero, if_neg hf, if_neg hf]

theorem VpD_eq_VpC_all (robo : Robot K) (geom : Geom K)
    (hJ : ∀ j, (robo.J j)ᵀ = robo.J j)
    (hR : ∀ k, k < robo.NL → 0 < k →
      ((geom.antRj k)ᵀ * geom.antRj k = 1 ∧
        ∀ v : V3 K, geom.antRj k * skew v * (geom.antRj k)ᵀ =
          skew (geom.antRj k *ᵥ v)))
    (hIA : ∀ j, j < robo.NL → robo.IA j = 0)
    (hfric : ∀ j, j < robo.NL →
      robo.fric_s j = 0 ∧ robo.fric_v j = 0 ∧ robo.tau_ia j = 0)
    (hfix : ∀ j, j < robo.NL → robo.sigma j = 2 → robo.qddot j = 0)
    (hG : ∀ j, j < robo.NL → 0 < j →
      robo.GAM j = (composite_newton_euler robo geom).torque j)
    (hh : ∀ j, j < robo.NL → 0 < j → robo.sigma j ≠ 2 →
      jaj robo j ⬝ᵥ (Istar robo geom j *ᵥ jaj robo j) ≠ 0)
    (hdet : robo.is_floating = true →
      IsUnit (Icomp robo geom 0).det ∧ IsUnit (Istar robo geom 0).det) :
    ∀ j, j < robo.NL → VpD robo geom j = VpC robo geom j ∧
      (0 < j → qddotD robo geom j = robo.qddot j) := by
  have hINV := star_wrench_invariant robo geom hJ hR hIA hfric hG hh
  intro j
  induction j using Nat.strong_induction_on with
  | _ j ih =>
    intro hj
    cases j with
    | zero =>
      refine ⟨VpD_zero_eq_VpC robo geom (hINV 0 hj) hdet, fun h => ?_⟩
      omega
    | succ j' =>
      have hant : robo.ant (j' + 1) < j' + 1 :=
        robo.ant_lt (j' + 1) (Nat.succ_pos j')
      have hVant : VpD robo geom (robo.ant (j' + 1)) =
          VpC robo geom (robo.ant (j' + 1)) :=
        (ih (robo.ant (j' + 1)) hant (lt_trans hant hj)).1
      have hq : qddotD robo geom (j' + 1) = robo.qddot (j' + 1) := by
        by_cases hσ : robo.sigma (j' + 1) = 2
        · rw [qddotD, if_pos hσ]
          exact (hfix (j' + 1) hj hσ).symm
        · have hINVj := hINV (j' + 1) hj
          have htau := tauD_eq_wrench robo geom (j' + 1) (Nat.succ_pos j')
            hj (hfric (j' + 1) hj) (hG (j' + 1) hj (Nat.succ_pos j')) hINVj
          have hsym := Istar_transpose robo geom hJ (j' + 1)
          have hne := hh (j' + 1) hj (Nat.succ_pos j') hσ
          have hTV : jTant geom (j' + 1) *ᵥ
              VpC robo geom (robo.ant (j' + 1)) +
              compute_gamma robo geom (j' + 1) =
              VpC robo geom (j' + 1) -
                robo.qddot (j' + 1) • jaj robo (j' + 1) := by
            rw [VpC_succ, compute_zeta]
            abel
          rw [qddotD, if_neg hσ, hVant, hTV, htau, jahD, hInvD, hDenom,
            hIA (j' + 1) hj, add_zero]
          rw [Matrix.smul_dotProduct, Matrix.dotProduct_sub,
            Matrix.dotProduct_smul,
            dotProduct_mulVec_symm _ hsym (jaj robo (j' + 1))
              (VpC robo geom (j' + 1)),
            Matrix.dotProduct_comm (Istar robo geom (j' + 1) *ᵥ
              jaj robo (j' + 1)) (jaj robo (j' + 1))]
          set X := jaj robo (j' + 1) ⬝ᵥ
            (Istar robo geom (j' + 1) *ᵥ VpC robo geom (j' + 1))
          set h := jaj robo (j' + 1) ⬝ᵥ
            (Istar robo geom (j' + 1) *ᵥ jaj robo (j' + 1))
          simp only [smul_eq_mul]
          field_simp
      refine ⟨?_, fun _ => hq⟩
      rw [VpD_succ, hVant, hq, VpC_succ, compute_zeta]

/-- C1: the round trip of the two algorithms.  For every kinematic tree
(parent-before-child numbering, symmetric link inertia tensors,
special-orthogonal joint rotations) with zero actuator inertia and zero
friction/rotor terms, zero prescribed acceleration at fixed joints,
nonsingular articulated inertias along the joint axes (and, if floating,
an invertible base inertia): running `composite_newton_euler` on the
prescribed accelerations `robo.qddot` to obtain the torques, and running
`direct_dynamic_model` with those torques as the applied torques `GAM`,
yields joint accelerations equal to the original `robo.qddot j` for every
joint. -/
theorem C1_round_trip (robo : Robot K) (geom : Geom K)
    (hJ : ∀ j, (robo.J j)ᵀ = robo.J j)
    (hR : ∀ k, k < robo.NL → 0 < k →
      ((geom.antRj k)ᵀ * geom.antRj k = 1 ∧
        ∀ v : V3 K, geom.antRj k * skew v * (geom.antRj k)ᵀ =
          skew (geom.antRj k *ᵥ v)))
    (hIA : ∀ j, j < robo.NL → robo.IA j = 0)
    (hfric : ∀ j, j < robo.NL →
      robo.fric_s j = 0 ∧ robo.fric_v j = 0 ∧ robo.tau_ia j = 0)
    (hfix : ∀ j, j < robo.NL → robo.sigma j = 2 → robo.qddot j = 0)
    (hG : ∀ j, j < robo.NL → 0 < j →
      robo.GAM j = (composite_newton_euler robo geom).torque j)
    (hh : ∀ j, j < robo.NL → 0 < j → robo.sigma j ≠ 2 →
      jaj robo j ⬝ᵥ
        ((direct_dynamic_model robo geom).star_inertia j *ᵥ jaj robo j)
        + robo.IA j ≠ 0)
    (hdet : robo.is_floating = true →
      IsUnit ((composite_newton_euler robo geom).composite_inertia 0).det ∧
      IsUnit ((direct_dynamic_model robo geom).star_inertia 0).det)
    (j : ℕ) (hj : j < robo.NL) (h0 : 0 < j) :
    (direct_dynamic_model robo geom).qddot j = robo.qddot j := by
  have hh' : ∀ i, i < robo.NL → 0 < i → robo.sigma i ≠ 2 →
      jaj robo i ⬝ᵥ (Istar robo geom i *ᵥ jaj robo i) ≠ 0 := by
    intro i hi hi0 hσ
    have h := hh i hi hi0 hσ
    rwa [direct_dynamic_model_star_inertia, hIA i hi, add_zero] at h
  have hdet' : robo.is_floating = true →
      IsUnit (Icomp robo geom 0).det ∧ IsUnit (Istar robo geom 0).det := by
    intro hf
    have h := hdet hf
    rwa [composite_newton_euler_inertia, direct_dynamic_model_star_inertia]
      at h
  rw [direct_dynamic_model_qddot robo geom j h0 hj]
  exact (VpD_eq_VpC_all robo geom hJ hR hIA hfric hfix hG hh' hdet' j hj).2 h0

theorem C1_round_trip_witness :
    (direct_dynamic_model roboRT geomZ).qddot 1 = roboRT.qddot 1 :=
  C1_round_trip roboRT geomZ
    (fun _ => Matrix.transpose_one)
    (fun k _ _ => ⟨by simp [geomZ], fun v => by simp [geomZ]⟩)
    (by decide) (by decide) (by decide) (by decide) (by decide)
    (fun hf => absurd hf (by decide))
    1 (by decide) (by decide)

theorem C7_inertia_symmetry_witness :
    ((compUpTo roboRT geomZ 1).composite_inertia 1).IsSymm ∧
    ((starUpTo roboRT geomZ 1).star_inertia 1).IsSymm :=
  C7_inertia_symmetry roboRT geomZ (fun j => Matrix.transpose_one) 1 1

theorem C6_base_solve_failure_witness :
    direct_dynamic_base_checked roboC6Q geomQ =
      Except.error DynError.nonInvertibleMatrix ∧
    composite_base_checked roboC6Q geomQ =
      Except.error DynError.nonInvertibleMatrix :=
  C6_base_solve_failure roboC6Q geomQ rfl roboC6Q_star_det roboC6Q_comp_det


end Fldyn
